import Mathlib

/-!
# goVideoConverter: a verification development of `main.go`

The program walks a folder, and for every video file launches `ffmpeg` with an
argument vector derived from the command-line flags, drains the child's
diagnostic stream in a goroutine (decoding progress lines on the way) and waits
for the child to exit.

The embedding is shallow.  Go strings are Lean `String`s (their `data` is the
list of runes; all inputs are taken to be valid UTF-8, for which the byte-wise
prefix, suffix and substring tests of package `strings` agree with the rune-wise
ones).  The operating system, the file system and the child processes are
explicit inputs: what `ffmpeg -encoders` printed, what `filepath.Walk` visited,
which subtitle candidates `os.Stat` found, and how each child behaved.

The two goroutines are modelled apart.  `walkFn`, `Walk` and `main` give the
events of the main goroutine.  `drain` gives the writes of the goroutine of
lines 107-133: its input is what the reads on the pipe deliver, and the error
that ends them, and `scanLines` is the `bufio.Scanner` that splits it into
lines, with its limit of 64 KiB on a line.  What the main goroutine does to the
drainer shows in that input: when `cmd.Wait()` closes the pipe early, the reads
fail and deliver only a prefix of what the child wrote.  `float64` arithmetic
is IEEE 754 binary64 with rounding to nearest, ties to even, on exact rational
values.
-/

namespace GoVideoConverter

/-! ## Library functions used by `main.go` -/

/-- The two platform- and table-dependent ingredients of the Go library used on
paths: `os.IsPathSeparator` and the Unicode table behind `unicode.ToLower` for
runes outside ASCII. -/
structure GoEnv where
  isPathSeparator : Char → Bool
  toLowerTable : Char → Char

/-- The Unix instance: `/` separates path elements.  The case table of the Go
release in use stays a parameter. -/
def unixEnv (toLowerTable : Char → Char) : GoEnv where
  isPathSeparator := fun c => c == '/'
  toLowerTable := toLowerTable

/-- The loop of `filepath.Ext`, run over the reversed path: walk back from the
last rune, stop with the empty extension at a path separator, and stop with the
suffix starting at the dot when one is met. -/
def extLoop (sep : Char → Bool) : List Char → List Char → List Char
  | [], _ => []
  | c :: rest, acc =>
    if sep c then []
    else if c = '.' then c :: acc
    else extLoop sep rest (c :: acc)

/-- Go `filepath.Ext`: the suffix beginning at the final dot in the final element
of the path; empty if there is no dot. -/
def Ext (env : GoEnv) (path : String) : String :=
  ⟨extLoop env.isPathSeparator path.data.reverse []⟩

/-- Go `unicode.ToLower` on one rune: ASCII is handled by the `A`..`Z` range test,
everything else by the case table. -/
def toLowerRune (env : GoEnv) (c : Char) : Char :=
  if c.toNat < 128 then
    (if 'A'.toNat ≤ c.toNat ∧ c.toNat ≤ 'Z'.toNat then Char.ofNat (c.toNat + 32) else c)
  else env.toLowerTable c

/-- Go `strings.ToLower`: every rune mapped to lower case. -/
def ToLower (env : GoEnv) (s : String) : String :=
  ⟨s.data.map (toLowerRune env)⟩

/-- Go `strings.HasSuffix`: does `s` end in `suffix`? -/
def HasSuffix (s suffix : String) : Bool :=
  suffix.data.isSuffixOf s.data

/-- Go `strings.TrimSuffix`: `s` without the trailing `suffix`; `s` itself when it
does not end in `suffix`. -/
def TrimSuffix (s suffix : String) : String :=
  if HasSuffix s suffix then ⟨s.data.take (s.data.length - suffix.data.length)⟩ else s

/-- Substring search on rune lists: is `sub` a prefix of some suffix of the
text? -/
def containsAt (sub : List Char) : List Char → Bool
  | [] => sub.isPrefixOf []
  | c :: rest => sub.isPrefixOf (c :: rest) || containsAt sub rest

/-- Go `strings.Contains`: does `substr` occur in `s`? -/
def Contains (s substr : String) : Bool :=
  containsAt substr.data s.data

/-- Go `fmt.Sprintf("%d", n)` for an `int`: the decimal numeral, with a leading
minus sign for negative values. -/
def sprintfD (n : Int) : String := toString n

/-! ## Configuration and tables -/

/-- The command-line flags after `flag.Parse()`. -/
structure Flags where
  folder : String
  crf : Int
  threads : Int
  codec : String
  subtitles : Bool
  preset : String

/-- The defaults declared in `main`. -/
def defaultFlags : Flags where
  folder := "./"
  crf := 28
  threads := 0
  codec := "hevc"
  subtitles := false
  preset := "medium"

/-- Keys of the `videoExts` map (all map to `true`). -/
def videoExtKeys : List String :=
  [".mp4", ".mkv", ".avi", ".mov", ".flv", ".wmv", ".webm"]

/-- The lookup `videoExts[ext]`: `true` on the keys, the zero value `false`
elsewhere. -/
def videoExts (ext : String) : Bool := videoExtKeys.contains ext

/-- Keys of the `subtitleExts` map. -/
def subtitleExtKeys : List String :=
  [".srt", ".ass", ".ssa", ".sub", ".idx"]

/-! ## The per-file callback -/

/-- Line 73: `ext := strings.ToLower(filepath.Ext(path))`. -/
def lowerExt (env : GoEnv) (path : String) : String :=
  ToLower env (Ext env path)

/-- Line 77: `strings.TrimSuffix(path, ext) + "_" + *codec + ".mp4"`. -/
def outputPath (env : GoEnv) (codec path : String) : String :=
  TrimSuffix path (lowerExt env path) ++ "_" ++ codec ++ ".mp4"

/-- The `range subtitleExts` loop of lines 81-88.  `order` is the order in
which the map iteration yields the keys and `statOk` tells whether `os.Stat`
succeeds on a candidate.  Each round overwrites `subtitlePath`: with the
candidate and `break` when it exists, with the empty string otherwise. -/
def subtitleLoop (statOk : String → Bool) (stem : String) : List String → String → String
  | [], subtitlePath => subtitlePath
  | subtitleExt :: rest, _ =>
    if statOk (stem ++ subtitleExt) then stem ++ subtitleExt
    else subtitleLoop statOk stem rest ""

/-- Lines 79-89: `subtitlePath` stays empty unless `-subtitles` is set. -/
def findSubtitle (env : GoEnv) (flags : Flags) (statOk : String → Bool)
    (order : List String) (path : String) : String :=
  if flags.subtitles then
    subtitleLoop statOk (TrimSuffix path (lowerExt env path)) order ""
  else ""

/-- Lines 91-95: the argument vector handed to `exec.Command("ffmpeg", ...)`. -/
def cmdArgs (flags : Flags) (path subtitlePath outputPath : String) : List String :=
  let cmdArgs := ["-i", path, "-c:v", flags.codec, "-preset", flags.preset,
    "-threads", sprintfD flags.threads, "-crf", sprintfD flags.crf, "-c:a", "copy", "-y"]
  let cmdArgs := if subtitlePath ≠ "" then cmdArgs ++ ["-vf", "subtitles=" ++ subtitlePath]
    else cmdArgs
  cmdArgs ++ [outputPath]

/-- The text of a Go `error` value, as `err.Error()` gives it. -/
abbrev GoError := String

/-- What the reads on the pipe returned by `cmd.StderrPipe()` give the drain
goroutine: the bytes delivered by the successful reads, in order, and the error
that ends them (`none` is `io.EOF`, reached when the child has closed its end
and everything it wrote was read; `some err` is a failed read, as when
`cmd.Wait()` on line 135 closes the pipe first, and then `data` is only a
prefix of what the child wrote). -/
structure Stream where
  data : String
  err : Option GoError

/-- How one child process behaves: the outcomes of `cmd.StderrPipe()`,
`cmd.Start()` and `cmd.Wait()` (`none` is the `nil` error; `Wait` fails when
the child exits non-zero), and what the reads on its diagnostic stream give. -/
structure Child where
  pipeErr : Option GoError
  startErr : Option GoError
  waitErr : Option GoError
  stderr : Stream

/-- One call of the walk callback: the arguments `filepath.Walk` passes
(`path`, `info.IsDir()`, `err`) and the environment the callback observes while
it runs (the file system through `os.Stat`, the iteration order of the
`subtitleExts` map, the child process). -/
structure Visit where
  path : String
  isDir : Bool
  err : Option GoError
  statOk : String → Bool
  subtitleOrder : List String
  child : Child

/-- What the main goroutine does that is visible outside: calling
`cmd.Start()` on `exec.Command("ffmpeg", args...)`, and writing to standard
output. -/
inductive Event where
  | start (args : List String)
  | print (text : String)
  deriving DecidableEq, Repr

/-- Line 139: `fmt.Printf("转换完成: %s 到 %s\n", path, outputPath)`. -/
def doneMessage (path outputPath : String) : String :=
  "转换完成: " ++ path ++ " 到 " ++ outputPath ++ "\n"

/-- The callback given to `filepath.Walk` (lines 66-141), as seen from the main
goroutine: the events it causes and the error it returns.  The goroutine of
lines 107-133 runs beside it and is modelled by `drain` below. -/
def walkFn (env : GoEnv) (flags : Flags) (v : Visit) : List Event × Option GoError :=
  match v.err with
  | some err => ([], some err)
  | none =>
    if v.isDir then ([], none)
    else
      let ext := lowerExt env v.path
      if !videoExts ext then ([], none)
      else
        let outputPath := outputPath env flags.codec v.path
        let subtitlePath := findSubtitle env flags v.statOk v.subtitleOrder v.path
        let cmdArgs := cmdArgs flags v.path subtitlePath outputPath
        match v.child.pipeErr with
        | some err => ([], some err)
        | none =>
          match v.child.startErr with
          | some err => ([Event.start cmdArgs], some err)
          | none =>
            match v.child.waitErr with
            | some err => ([Event.start cmdArgs], some err)
            | none => ([Event.start cmdArgs, Event.print (doneMessage v.path outputPath)], none)

/-- The argument vector the callback builds for one visited file (lines 77-95
put together). -/
def jobArgs (env : GoEnv) (flags : Flags) (v : Visit) : List String :=
  cmdArgs flags v.path (findSubtitle env flags v.statOk v.subtitleOrder v.path)
    (outputPath env flags.codec v.path)

/-- A visit that passes the three filters at the top of the callback: no walk
error, not a directory, a recognised video extension. -/
def Visit.isVideoFile (env : GoEnv) (v : Visit) : Prop :=
  v.err = none ∧ v.isDir = false ∧ videoExts (lowerExt env v.path) = true

/-- Go `filepath.Walk` over the entries it would visit, in order: the callback is
called on each one until it returns a non-nil error, which ends the walk and is
the walk's result.  (The callback never returns `filepath.SkipDir`.) -/
def Walk (fn : Visit → List Event × Option GoError) : List Visit → List Event × Option GoError
  | [] => ([], none)
  | v :: rest =>
    match fn v with
    | (events, some err) => (events, some err)
    | (events, none) => (events ++ (Walk fn rest).1, (Walk fn rest).2)

/-- The outside world of one run: the result of `exec.Command("ffmpeg",
"-encoders").Output()` and the entries under `*folder`. -/
structure World where
  encodersOut : Except GoError String
  visits : List Visit

/-- One run of the program: the events of the main goroutine and the exit code
of the process (`os.Exit(1)` on the setup failures, `0` when `main` returns). -/
structure Run where
  events : List Event
  exitCode : Nat
  deriving DecidableEq, Repr

/-- The function `main` after `flag.Parse()` (lines 48-146). -/
def main (env : GoEnv) (flags : Flags) (world : World) : Run :=
  match world.encodersOut with
  | Except.error err => ⟨[Event.print ("检查编码器列表时出错:  " ++ err ++ "\n")], 1⟩
  | Except.ok out =>
    let encoderAvailable := if Contains out flags.codec then true else false
    if !encoderAvailable then
      ⟨[Event.print ("指定的编码器 " ++ flags.codec ++ " 不可用，请选择其他编码器。")], 1⟩
    else
      match Walk (walkFn env flags) world.visits with
      | (events, some err) => ⟨events ++ [Event.print ("转换错误:  " ++ err ++ "\n")], 0⟩
      | (events, none) => ⟨events, 0⟩

instance (env : GoEnv) (v : Visit) : Decidable (v.isVideoFile env) := by
  unfold Visit.isVideoFile
  infer_instance

/-! ## `float64` arithmetic

IEEE 754 binary64 with round-to-nearest, ties to even, as Go's `float64`
operations, `strconv.ParseFloat` and the `%.2f` verb compute.  A finite value
is `(-1)^neg * m * 2^e` with `m < 2^53` and `-1074 ≤ e ≤ 971`, and `2^52 ≤ m`
unless `e = -1074` (subnormal numbers and the two zeros). -/

/-- A `float64` value. -/
inductive F64 where
  | nan
  | inf (neg : Bool)
  | fin (neg : Bool) (m : Nat) (e : Int)
  deriving DecidableEq, Repr

/-- The rational number a finite `float64` stands for (`0` for NaN and the
infinities, which stand for none). -/
def F64.toRat : F64 → ℚ
  | F64.fin neg m e => (if neg then -1 else 1) * (m : ℚ) * (2 : ℚ) ^ e
  | _ => 0

/-- Number of binary digits of `n`, by halving; `fuel` bounds the number of
halvings and `n` itself is always enough. -/
def bitLengthAux : Nat → Nat → Nat
  | 0, _ => 0
  | fuel + 1, n => if n = 0 then 0 else bitLengthAux fuel (n / 2) + 1

/-- Number of binary digits of `n`: `2^(bitLength n - 1) ≤ n < 2^(bitLength n)`
for positive `n`. -/
def bitLength (n : Nat) : Nat := bitLengthAux n n

/-- Numerator of `n / d / 2^e` as a fraction of naturals. -/
def scaleNum (n : Nat) (e : Int) : Nat := if e < 0 then n * 2 ^ e.natAbs else n

/-- Denominator of `n / d / 2^e` as a fraction of naturals. -/
def scaleDen (d : Nat) (e : Int) : Nat := if e < 0 then d else d * 2 ^ e.natAbs

/-- The integer nearest to `n / d`, the even one of the two on a tie. -/
def roundHalfEven (n d : Nat) : Nat :=
  let q := n / d
  let r := n % d
  if 2 * r < d then q
  else if d < 2 * r then q + 1
  else if q % 2 = 0 then q else q + 1

/-- The integer `⌊log₂ (n / d)⌋` for positive `n` and `d`. -/
def floorLog2 (n d : Nat) : Int :=
  let l : Int := (bitLength n : Int) - (bitLength d : Int)
  if scaleDen d l ≤ scaleNum n l then l else l - 1

/-- Rounding of the non-negative rational `n / d` (with `d` positive), given
the sign `neg`, to the nearest `float64`: the exponent is chosen so that the
significand has 53 bits (or is the least exponent, for subnormal results), the
significand is rounded half-to-even, a carry out of 53 bits moves to the next
exponent, and a result beyond the largest exponent is an infinity. -/
def roundRat (neg : Bool) (n d : Nat) : F64 :=
  if n = 0 then F64.fin neg 0 (-1074)
  else
    let e : Int := max (floorLog2 n d - 52) (-1074)
    let m := roundHalfEven (scaleNum n e) (scaleDen d e)
    let m' := if m = 2 ^ 53 then 2 ^ 52 else m
    let e' := if m = 2 ^ 53 then e + 1 else e
    if 971 < e' then F64.inf neg else F64.fin neg m' e'

/-- Rounding of `n / d * 2^e`. -/
def roundScaled (neg : Bool) (n d : Nat) (e : Int) : F64 :=
  roundRat neg (scaleNum n (-e)) (scaleDen d (-e))

/-- The conversion `float64(n)` of an `int`. -/
def F64.ofInt (n : Int) : F64 := roundRat (decide (n < 0)) n.natAbs 1

/-- The product `a * b`. -/
def F64.mul : F64 → F64 → F64
  | F64.nan, _ => F64.nan
  | _, F64.nan => F64.nan
  | F64.inf s, F64.inf t => F64.inf (s != t)
  | F64.inf s, F64.fin t m _ => if m = 0 then F64.nan else F64.inf (s != t)
  | F64.fin s m _, F64.inf t => if m = 0 then F64.nan else F64.inf (s != t)
  | F64.fin s m e, F64.fin t m' e' => roundScaled (s != t) (m * m') 1 (e + e')

/-- The quotient `a / b`. -/
def F64.div : F64 → F64 → F64
  | F64.nan, _ => F64.nan
  | _, F64.nan => F64.nan
  | F64.inf _, F64.inf _ => F64.nan
  | F64.inf s, F64.fin t _ _ => F64.inf (s != t)
  | F64.fin s _ _, F64.inf t => F64.fin (s != t) 0 (-1074)
  | F64.fin s m e, F64.fin t m' e' =>
    if m' = 0 then (if m = 0 then F64.nan else F64.inf (s != t))
    else roundScaled (s != t) m m' (e - e')

/-- The sum `a + b`.  A sum that is exactly zero is `+0`, except that
`(-0) + (-0)` is `-0`. -/
def F64.add : F64 → F64 → F64
  | F64.nan, _ => F64.nan
  | _, F64.nan => F64.nan
  | F64.inf s, F64.inf t => if s = t then F64.inf s else F64.nan
  | F64.inf s, F64.fin _ _ _ => F64.inf s
  | F64.fin _ _ _, F64.inf t => F64.inf t
  | F64.fin s m e, F64.fin t m' e' =>
    let e0 := min e e'
    let a : Int := (if s then -1 else 1) * ((m * 2 ^ (e - e0).natAbs : Nat) : Int)
    let b : Int := (if t then -1 else 1) * ((m' * 2 ^ (e' - e0).natAbs : Nat) : Int)
    if a + b = 0 then F64.fin (s && t) 0 (-1074)
    else roundScaled (decide (a + b < 0)) (a + b).natAbs 1 e0

/-! ## `strconv` and `fmt` -/

/-- The class `\d` of Go regular expressions: the ASCII digits. -/
def isDigit (c : Char) : Bool := decide ('0'.toNat ≤ c.toNat ∧ c.toNat ≤ '9'.toNat)

/-- Value of a decimal digit. -/
def digitVal (c : Char) : Nat := c.toNat - '0'.toNat

/-- Value of a string of decimal digits. -/
def decimalValue (ds : List Char) : Nat :=
  ds.foldl (fun acc c => acc * 10 + digitVal c) 0

/-- Unsigned part of `strconv.Atoi`: a non-empty string of digits. -/
def atoiDigits (neg : Bool) (ds : List Char) : Int :=
  if ds ≠ [] ∧ ds.all isDigit = true then
    (if neg then max (-(decimalValue ds : Int)) (-(2 ^ 63 : Int))
     else min (decimalValue ds : Int) (2 ^ 63 - 1))
  else 0

/-- The value returned by `strconv.Atoi` when its error is dropped (`n, _ :=`):
the number for an optionally signed decimal numeral, clamped to the 64-bit
range, and `0` on a syntax error. -/
def Atoi (s : String) : Int :=
  match s.data with
  | '-' :: ds => atoiDigits true ds
  | '+' :: ds => atoiDigits false ds
  | ds => atoiDigits false ds

/-- Unsigned part of `ParseFloat` on plain decimal syntax: digits with at most
one point and at least one digit, rounded to the nearest `float64`. -/
def parseDecimal (neg : Bool) (cs : List Char) : F64 :=
  let ip := cs.takeWhile isDigit
  let rest := cs.dropWhile isDigit
  match rest with
  | [] => if ip = [] then F64.fin false 0 (-1074) else roundRat neg (decimalValue ip) 1
  | c :: fp =>
    if c = '.' ∧ fp.all isDigit = true ∧ ¬ (ip = [] ∧ fp = []) then
      roundRat neg (decimalValue (ip ++ fp)) (10 ^ fp.length)
    else F64.fin false 0 (-1074)

/-- The value returned by `strconv.ParseFloat(s, 64)` when its error is dropped,
on plain decimal numerals (optional sign, digits, optional point): the nearest
`float64`, an infinity when out of range, and `0` on a syntax error.  The other
spellings Go accepts (exponents, hexadecimal, `Inf`, `NaN`) cannot occur in the
groups captured by the two regular expressions and are not modelled. -/
def ParseFloat (s : String) : F64 :=
  match s.data with
  | '-' :: cs => parseDecimal true cs
  | '+' :: cs => parseDecimal false cs
  | cs => parseDecimal false cs

/-- Two decimal digits of a number below 100. -/
def twoDigits (n : Nat) : String :=
  String.mk [Nat.digitChar (n / 10 % 10), Nat.digitChar (n % 10)]

/-- The verb `%.2f`: `NaN`, `+Inf`, `-Inf`, and for a finite value the exact
binary value rounded half-to-even to two decimals. -/
def sprintfF2 : F64 → String
  | F64.nan => "NaN"
  | F64.inf neg => if neg then "-Inf" else "+Inf"
  | F64.fin neg m e =>
    let h := roundHalfEven (scaleNum (m * 100) (-e)) (scaleDen 1 (-e))
    (if neg then "-" else "") ++ toString (h / 100) ++ "." ++ twoDigits (h % 100)

/-! ## The progress parser and the stream drainer -/

/-- The leftmost match of a pattern, given its matcher anchored at the start
of a text: the first position at which the anchored matcher succeeds.  The
result is that of `FindStringSubmatch`: the whole match followed by the
groups, or the empty slice when nothing matches. -/
def findFirst (matchAt : List Char → List String) : List Char → List String
  | [] => matchAt []
  | c :: rest =>
    if matchAt (c :: rest) ≠ [] then matchAt (c :: rest) else findFirst matchAt rest

/-- The pattern `time=(\d{2}):(\d{2}):(\d{2}\.\d{2})` anchored at the start of
the text. -/
def matchTimeAt (cs : List Char) : List String :=
  if "time=".data.isPrefixOf cs then
    match cs.drop 5 with
    | h1 :: h2 :: c1 :: m1 :: m2 :: c2 :: s1 :: s2 :: p :: f1 :: f2 :: _ =>
      if isDigit h1 ∧ isDigit h2 ∧ c1 = ':' ∧ isDigit m1 ∧ isDigit m2 ∧ c2 = ':' ∧
          isDigit s1 ∧ isDigit s2 ∧ p = '.' ∧ isDigit f1 ∧ isDigit f2 then
        [String.mk ("time=".data ++ [h1, h2, ':', m1, m2, ':', s1, s2, '.', f1, f2]),
          String.mk [h1, h2], String.mk [m1, m2], String.mk [s1, s2, '.', f1, f2]]
      else []
    | _ => []
  else []

/-- The pattern `duration=(\d+\.\d+)` anchored at the start of the text.  Both
repetitions are greedy: each takes the longest run of digits, and no shorter
choice for the first can be followed by the point. -/
def matchDurationAt (cs : List Char) : List String :=
  if "duration=".data.isPrefixOf cs then
    let ip := (cs.drop 9).takeWhile isDigit
    match (cs.drop 9).dropWhile isDigit with
    | c :: after =>
      let fp := after.takeWhile isDigit
      if c = '.' ∧ ip ≠ [] ∧ fp ≠ [] then
        [String.mk ("duration=".data ++ ip ++ '.' :: fp), String.mk (ip ++ '.' :: fp)]
      else []
    | [] => []
  else []

/-- The call `reTime.FindStringSubmatch(line)`. -/
def reTimeFind (line : String) : List String := findFirst matchTimeAt line.data

/-- The call `reDuration.FindStringSubmatch(line)`. -/
def reDurationFind (line : String) : List String := findFirst matchDurationAt line.data

/-- The writes of the drain goroutine to standard output: a progress update
(line 128) or a forwarded line (line 131). -/
inductive Out where
  | progress (p : F64)
  | line (text : String)
  deriving DecidableEq, Repr

/-- The text of a write: `fmt.Printf("\r转码进度：%.2f%%", progress)` and
`fmt.Println(line)`. -/
def Out.render : Out → String
  | Out.progress p => "\r转码进度：" ++ sprintfF2 p ++ "%"
  | Out.line text => text ++ "\n"

/-- Lines 120-123: the elapsed time `current`, in seconds, computed from the
groups captured by `reTime`. -/
def currentOf (timeMatches : List String) : F64 :=
  let hours := Atoi (timeMatches.getD 1 "")
  let minutes := Atoi (timeMatches.getD 2 "")
  let seconds := ParseFloat (timeMatches.getD 3 "")
  F64.add
    (F64.add (F64.mul (F64.ofInt hours) (F64.ofInt 3600))
      (F64.mul (F64.ofInt minutes) (F64.ofInt 60)))
    seconds

/-- Lines 120-127: the percentage `current / duration * 100` computed from the
captured groups. -/
def progressOf (timeMatches durationMatches : List String) : F64 :=
  let current := currentOf timeMatches
  let duration := ParseFloat (durationMatches.getD 1 "")
  F64.mul (F64.div current duration) (F64.ofInt 100)

/-- The body of the scanner loop (lines 111-131) for one line. -/
def drainLine (line : String) : List Out :=
  (if Contains line "time=" ∧ Contains line "duration=" then
    let timeMatches := reTimeFind line
    let durationMatches := reDurationFind line
    if timeMatches.length = 4 ∧ durationMatches.length = 2 then
      [Out.progress (progressOf timeMatches durationMatches)]
    else []
  else []) ++ [Out.line line]

/-- The constant `bufio.MaxScanTokenSize`: the largest size the buffer of a
scanner made by `bufio.NewScanner` grows to, in bytes. -/
def maxScanTokenSize : Nat := 64 * 1024

/-- Number of bytes of the UTF-8 encoding of a text. -/
def utf8Len (cs : List Char) : Nat := (cs.map Char.utf8Size).sum

/-- The helper `dropCR` of package `bufio`: the data without one trailing
carriage return. -/
def dropCR (data : List Char) : List Char :=
  if data.getLast? = some '\r' then data.dropLast else data

/-- The tokens that successive calls of `scanner.Scan()` yield, for a scanner
made by `bufio.NewScanner` (split function `bufio.ScanLines`, buffer limit
`maxScanTokenSize`) over reads that deliver the given data and then fail.
`pending` is the part of the current line met so far, last rune first.  A
newline ends a token, which is the line without the newline and without one
trailing carriage return.  When the data end, what is pending is a last token
if it is not empty (the split function is then called with `atEOF` set, for
`io.EOF` and for any other read error alike).  When `maxScanTokenSize` bytes
are pending and no newline is among them, the buffer is full and cannot grow:
`Scan` sets `ErrTooLong` and returns `false`, and no later call yields
anything. -/
def scanLines : List Char → List Char → List String
  | [], pending =>
    if pending = [] then []
    else if maxScanTokenSize ≤ utf8Len pending then []
    else [String.mk (dropCR pending.reverse)]
  | c :: rest, pending =>
    if c = '\n' then
      if maxScanTokenSize ≤ utf8Len pending then []
      else String.mk (dropCR pending.reverse) :: scanLines rest []
    else scanLines rest (c :: pending)

/-- The loop `for scanner.Scan() { line := scanner.Text(); ... }` of lines
110-132, over the tokens the scanner yields. -/
def drainLoop : List String → List Out
  | [] => []
  | line :: rest => drainLine line ++ drainLoop rest

/-- The drain goroutine (lines 107-133) run until `scanner.Scan()` returns
`false`: the scanner splits what the reads deliver into lines and the loop
body runs on each.  The error that ends the reads plays no part, and
`scanner.Err()` is never consulted. -/
def drain (stderr : Stream) : List Out :=
  drainLoop (scanLines stderr.data.data [])

/-- The stream in which each of the given lines is written followed by a
newline. -/
def joinLines (lines : List String) : String :=
  String.mk (lines.flatMap (fun l => l.data ++ ['\n']))

/-- The lines forwarded to the sink, in the order of the writes. -/
def forwarded (outs : List Out) : List String :=
  outs.filterMap (fun o => match o with
    | Out.line text => some text
    | Out.progress _ => none)

/-- The progress values written, in the order of the writes. -/
def progressUpdates (outs : List Out) : List F64 :=
  outs.filterMap (fun o => match o with
    | Out.progress p => some p
    | Out.line _ => none)

/-! ## The two patterns, as languages -/

/-- The text contains a match of `time=\d{2}:\d{2}:\d{2}\.\d{2}` somewhere. -/
def TimePatternOccurs (line : String) : Prop :=
  ∃ (pre post : List Char) (h1 h2 m1 m2 s1 s2 f1 f2 : Char),
    isDigit h1 = true ∧ isDigit h2 = true ∧ isDigit m1 = true ∧ isDigit m2 = true ∧
    isDigit s1 = true ∧ isDigit s2 = true ∧ isDigit f1 = true ∧ isDigit f2 = true ∧
    line.data = pre ++ ("time=".data ++ [h1, h2, ':', m1, m2, ':', s1, s2, '.', f1, f2]) ++ post

/-- The text contains a match of `duration=\d+\.\d+` somewhere. -/
def DurationPatternOccurs (line : String) : Prop :=
  ∃ (pre post ip fp : List Char),
    ip ≠ [] ∧ fp ≠ [] ∧ ip.all isDigit = true ∧ fp.all isDigit = true ∧
    line.data = pre ++ ("duration=".data ++ ip ++ '.' :: fp) ++ post

/-- The exact value of a plain decimal numeral `digits.digits` (or `digits`),
as a rational number. -/
def decimalRat (s : String) : ℚ :=
  let ip := s.data.takeWhile isDigit
  let fp := (s.data.dropWhile isDigit).drop 1
  (decimalValue (ip ++ fp) : ℚ) / (10 : ℚ) ^ fp.length

/-- The unit roundoff of `float64`: half the distance between `1` and the next
larger value, `2^-53`. -/
def unitRoundoff : ℚ := 1 / 2 ^ 53

/-- The value `f` is a finite, non-negative `float64` that lies within `k`
roundings of the exact number `x`: with `u` the unit roundoff,
`x * (1 - u)^k ≤ f` and `f * (1 - u)^k ≤ x`. -/
def Near (k : Nat) (f : F64) (x : ℚ) : Prop :=
  ∃ m e, f = F64.fin false m e ∧
    x * (1 - unitRoundoff) ^ k ≤ (m : ℚ) * (2 : ℚ) ^ e ∧
    (m : ℚ) * (2 : ℚ) ^ e * (1 - unitRoundoff) ^ k ≤ x

/-- The exact number `x` is zero or lies well inside the range of normal
`float64` values. -/
def InRange (x : ℚ) : Prop :=
  x = 0 ∨ ((2 : ℚ) ^ (-1021 : ℤ) ≤ x ∧ x < (2 : ℚ) ^ (1022 : ℤ))

/-! ## Sample inputs -/

/-- A child that starts, writes nothing and exits zero. -/
def okChild : Child := ⟨none, none, none, ⟨"", none⟩⟩

/-- A child that starts and exits with status 1. -/
def failChild : Child := ⟨none, none, some "exit status 1", ⟨"", none⟩⟩

/-- A regular file met by the walk, with no subtitle file beside it. -/
def fileVisit (path : String) (child : Child) : Visit :=
  ⟨path, false, none, fun _ => false, subtitleExtKeys, child⟩

/-- The default flags with `-subtitles` switched on. -/
def subtitleFlags : Flags where
  folder := "./"
  crf := 28
  threads := 0
  codec := "hevc"
  subtitles := true
  preset := "medium"

/-- The positive duration `10^-401`, written out in full: `0.`, four hundred
zeros, `1`. -/
def tinyDuration : String :=
  String.mk ("0.".data ++ List.replicate 400 '0' ++ ['1'])

/-- A line with one second elapsed and the duration `tinyDuration`. -/
def tinyDurationLine : String :=
  "time=00:00:01.00 duration=" ++ tinyDuration

/-- A line of 65536 bytes, one more than a scanner token can hold before its
newline. -/
def longLine : String := String.mk (List.replicate 65536 'x')

/-- An encoder listing in which `hevc` occurs only inside `hevc_nvenc`. -/
def nvencListing : String := " V....D hevc_nvenc           NVIDIA NVENC hevc encoder (codec hevc)"

/-! ## Strings -/

theorem containsAt_iff (sub s : List Char) :
    containsAt sub s = true ↔ sub <:+: s := by
  induction s with
  | nil => simp [containsAt, List.isPrefixOf_iff_prefix]
  | cons c rest ih =>
    simp [containsAt, List.infix_cons_iff, ih, List.isPrefixOf_iff_prefix]

theorem Contains_iff (s substr : String) :
    Contains s substr = true ↔ ∃ pre post : String, s = pre ++ substr ++ post := by
  unfold Contains
  rw [containsAt_iff]
  constructor
  · rintro ⟨a, b, h⟩
    refine ⟨⟨a⟩, ⟨b⟩, ?_⟩
    apply String.ext
    simp [String.data_append, ← h]
  · rintro ⟨pre, post, h⟩
    refine ⟨pre.data, post.data, ?_⟩
    rw [h]
    simp [String.data_append]

theorem extLoop_shape (sep : Char → Bool) (rev acc : List Char) :
    extLoop sep rev acc = [] ∨ ∃ tail, extLoop sep rev acc = '.' :: tail := by
  induction rev generalizing acc with
  | nil => simp [extLoop]
  | cons c rest ih =>
    unfold extLoop
    split
    · simp
    · split
      · rename_i h; right; exact ⟨acc, by rw [h]⟩
      · exact ih _

theorem toLowerRune_dot (env : GoEnv) : toLowerRune env '.' = '.' := by
  unfold toLowerRune
  rw [if_pos (by decide), if_neg (by decide)]

theorem lowerExt_shape (env : GoEnv) (path : String) :
    (lowerExt env path).data = [] ∨ ∃ tail, (lowerExt env path).data = '.' :: tail := by
  unfold lowerExt ToLower Ext
  rcases extLoop_shape env.isPathSeparator path.data.reverse [] with h | ⟨t, h⟩
  · left; simp [h]
  · right; simp [h, toLowerRune_dot]

theorem TrimSuffix_data (s suffix : String) :
    (TrimSuffix s suffix).data = s.data ∨
      (suffix.data ≠ [] ∧ s.data = (TrimSuffix s suffix).data ++ suffix.data) := by
  unfold TrimSuffix HasSuffix
  split
  · rename_i h
    rw [List.isSuffixOf_iff_suffix] at h
    obtain ⟨t, ht⟩ := h
    by_cases he : suffix.data = []
    · left; simp [he]
    · right
      refine ⟨he, ?_⟩
      simp [← ht]
  · left; rfl


/-- C10: the derived output path is never the source path itself, whatever the
path, the codec name (the empty one included) and the case of the extension;
so the last argument of the job, the file `-y` lets ffmpeg overwrite, is never
the file named after `-i`. -/
theorem outputPath_ne_source (env : GoEnv) (flags : Flags) (v : Visit) :
    outputPath env flags.codec v.path ≠ v.path ∧
      "-y" ∈ jobArgs env flags v ∧
      (jobArgs env flags v).getLast? = some (outputPath env flags.codec v.path) ∧
      (jobArgs env flags v).take 2 = ["-i", v.path] := by
  refine ⟨?_, ?_, ?_, ?_⟩
  · intro h
    have hd := congrArg String.data h
    unfold outputPath at hd
    simp only [String.data_append] at hd
    rcases TrimSuffix_data v.path (lowerExt env v.path) with ht | ⟨hne, ht⟩
    · rw [ht] at hd
      have hl := congrArg List.length hd
      simp at hl
    · rcases lowerExt_shape env v.path with he | ⟨tail, he⟩
      · exact hne he
      · rw [he] at ht
        rw [ht] at hd
        simp [List.append_assoc] at hd
  · unfold jobArgs cmdArgs
    split <;> simp
  · unfold jobArgs cmdArgs
    split <;> simp
  · unfold jobArgs cmdArgs
    split <;> simp

/-- C5, evaluated where it fails: `CLIP.MKV` is accepted as a video file, but
the lower-cased extension `.mkv` is not a suffix of the path, so nothing is
trimmed and the output path keeps the whole source name. -/
theorem outputPath_upper_case_ext (toLowerTable : Char → Char) :
    videoExts (lowerExt (unixEnv toLowerTable) "CLIP.MKV") = true ∧
      outputPath (unixEnv toLowerTable) "hevc" "CLIP.MKV" = "CLIP.MKV_hevc.mp4" ∧
      outputPath (unixEnv toLowerTable) "hevc" "CLIP.MKV" ≠ "CLIP_hevc.mp4" ∧
      outputPath (unixEnv toLowerTable) "hevc" "clip.mkv" = "clip_hevc.mp4" := by
  have h : outputPath (unixEnv toLowerTable) "hevc" "CLIP.MKV" = "CLIP.MKV_hevc.mp4" := rfl
  refine ⟨rfl, h, ?_, rfl⟩
  rw [h]
  decide

theorem append_ne_empty (stem e : String) (h : e ≠ "") : stem ++ e ≠ "" := by
  intro hc
  apply h
  have hd := congrArg String.data hc
  simp only [String.data_append] at hd
  apply String.ext
  exact (List.append_eq_nil.mp hd).2

theorem subtitleLoop_found (statOk : String → Bool) (stem : String) (order : List String)
    (ho : ∀ e ∈ order, e ≠ "") :
    subtitleLoop statOk stem order "" ≠ "" ↔ ∃ e ∈ order, statOk (stem ++ e) = true := by
  induction order with
  | nil => simp [subtitleLoop]
  | cons e rest ih =>
    have ih2 := ih (fun x hx => ho x (List.mem_cons_of_mem _ hx))
    unfold subtitleLoop
    by_cases hs : statOk (stem ++ e) = true
    · rw [if_pos hs]
      constructor
      · intro _
        exact ⟨e, List.mem_cons_self _ _, hs⟩
      · intro _
        exact append_ne_empty stem e (ho e (List.mem_cons_self _ _))
    · rw [if_neg hs, ih2]
      constructor
      · rintro ⟨x, hx, hxs⟩
        exact ⟨x, List.mem_cons_of_mem _ hx, hxs⟩
      · rintro ⟨x, hx, hxs⟩
        rcases List.mem_cons.mp hx with rfl | hx
        · exact absurd hxs hs
        · exact ⟨x, hx, hxs⟩

/-- C6: the argument vector of a job is `-i source -c:v codec -preset preset
-threads T -crf Q -c:a copy -y`, then `-vf subtitles=PATH` exactly when the
subtitle path is non-empty, then the output path; it has 14 elements without a
subtitle and 16 with one, and with `-subtitles` off the subtitle path is empty
and the filter absent.  With `-subtitles` on, the subtitle path is non-empty
exactly when `os.Stat` finds one of the candidates. -/
theorem cmdArgs_shape (env : GoEnv) (flags : Flags) (path subtitlePath outputPath : String)
    (statOk : String → Bool) (order : List String) :
    cmdArgs flags path subtitlePath outputPath =
        ["-i", path, "-c:v", flags.codec, "-preset", flags.preset,
          "-threads", sprintfD flags.threads, "-crf", sprintfD flags.crf,
          "-c:a", "copy", "-y"]
        ++ (if subtitlePath = "" then [] else ["-vf", "subtitles=" ++ subtitlePath])
        ++ [outputPath] ∧
      (cmdArgs flags path subtitlePath outputPath).length
        = (if subtitlePath = "" then 14 else 16) ∧
      (cmdArgs flags path subtitlePath outputPath).getLast? = some outputPath ∧
      (flags.subtitles = false →
        findSubtitle env flags statOk order path = "" ∧
        cmdArgs flags path (findSubtitle env flags statOk order path) outputPath =
          ["-i", path, "-c:v", flags.codec, "-preset", flags.preset,
            "-threads", sprintfD flags.threads, "-crf", sprintfD flags.crf,
            "-c:a", "copy", "-y", outputPath]) ∧
      ((∀ e ∈ order, e ≠ "") →
        (findSubtitle env flags statOk order path ≠ "" ↔
          flags.subtitles = true ∧
            ∃ e ∈ order, statOk (TrimSuffix path (lowerExt env path) ++ e) = true)) := by
  refine ⟨?_, ?_, ?_, ?_, ?_⟩
  · unfold cmdArgs
    by_cases h : subtitlePath = "" <;> simp [h]
  · unfold cmdArgs
    by_cases h : subtitlePath = "" <;> simp [h]
  · unfold cmdArgs
    by_cases h : subtitlePath = "" <;> simp [h]
  · intro h
    have hs : findSubtitle env flags statOk order path = "" := by
      unfold findSubtitle
      simp [h]
    refine ⟨hs, ?_⟩
    rw [hs]
    unfold cmdArgs
    simp
  · intro ho
    unfold findSubtitle
    by_cases hsub : flags.subtitles = true
    · rw [if_pos hsub, subtitleLoop_found statOk _ order ho]
      simp [hsub]
    · rw [if_neg hsub]
      simp [hsub]

/-! ## The walk and `main` -/

theorem walkFn_success (env : GoEnv) (flags : Flags) (v : Visit)
    (hv : v.isVideoFile env) (hp : v.child.pipeErr = none) (hs : v.child.startErr = none)
    (hw : v.child.waitErr = none) :
    walkFn env flags v =
      ([Event.start (jobArgs env flags v),
        Event.print (doneMessage v.path (outputPath env flags.codec v.path))], none) := by
  obtain ⟨he, hd, hx⟩ := hv
  unfold walkFn jobArgs
  simp [he, hd, hx, hp, hs, hw]

theorem Walk_append_ok (fn : Visit → List Event × Option GoError) (pre rest : List Visit)
    (h : ∀ u ∈ pre, (fn u).2 = none) :
    Walk fn (pre ++ rest) =
      (pre.flatMap (fun u => (fn u).1) ++ (Walk fn rest).1, (Walk fn rest).2) := by
  induction pre with
  | nil => simp
  | cons u us ih =>
    have hu : (fn u).2 = none := h u (by simp)
    have ih2 := ih (fun w hw => h w (by simp [hw]))
    simp only [List.cons_append, Walk]
    cases hfu : fn u with
    | mk ev r =>
      rw [hfu] at hu
      simp only at hu
      subst hu
      simp [ih2, hfu, List.append_assoc]

/-- C7: the availability check accepts exactly when the codec name occurs as a
substring of the encoder listing.  When it does not occur the run is the one
message followed by exit code 1, with no child started; when it does, the walk
runs.  Any listing containing `hevc_nvenc` accepts the codec `hevc`. -/
theorem codec_gate (env : GoEnv) (flags : Flags) (out : String) (visits : List Visit) :
    (Contains out flags.codec = true ↔
        ∃ pre post : String, out = pre ++ flags.codec ++ post) ∧
      (Contains out flags.codec = false →
        main env flags ⟨Except.ok out, visits⟩ =
          ⟨[Event.print ("指定的编码器 " ++ flags.codec ++ " 不可用，请选择其他编码器。")], 1⟩) ∧
      (Contains out flags.codec = true →
        (Walk (walkFn env flags) visits).1 <+:
          (main env flags ⟨Except.ok out, visits⟩).events) ∧
      (∀ pre post : String, Contains (pre ++ "hevc_nvenc" ++ post) "hevc" = true) := by
  refine ⟨Contains_iff _ _, ?_, ?_, ?_⟩
  · intro h
    simp [main, h]
  · intro h
    simp only [main, h, if_true, Bool.not_true, Bool.false_eq_true, if_false]
    cases hw : Walk (walkFn env flags) visits with
    | mk ev r =>
      cases r with
      | none => simp
      | some e => simp
  · intro pre post
    rw [Contains_iff]
    refine ⟨pre, "_nvenc" ++ post, ?_⟩
    apply String.ext
    simp [String.data_append]

/-- The events of a job that ran to a zero exit: the start of the child and
the announcement of the output path. -/
theorem Walk_all_ok (env : GoEnv) (flags : Flags) (pre rest : List Visit)
    (hpre : ∀ u ∈ pre, u.isVideoFile env ∧ u.child.pipeErr = none ∧
      u.child.startErr = none ∧ u.child.waitErr = none) :
    Walk (walkFn env flags) (pre ++ rest) =
      (pre.flatMap (fun u => [Event.start (jobArgs env flags u),
          Event.print (doneMessage u.path (outputPath env flags.codec u.path))])
        ++ (Walk (walkFn env flags) rest).1, (Walk (walkFn env flags) rest).2) := by
  have hfn : ∀ u ∈ pre, walkFn env flags u =
      ([Event.start (jobArgs env flags u),
        Event.print (doneMessage u.path (outputPath env flags.codec u.path))], none) :=
    fun u hu => walkFn_success env flags u (hpre u hu).1 (hpre u hu).2.1 (hpre u hu).2.2.1
      (hpre u hu).2.2.2
  rw [Walk_append_ok _ _ _ (fun u hu => by rw [hfn u hu])]
  congr 2
  apply List.flatMap_congr
  intro u hu
  rw [hfn u hu]

/-- C8: in a sequence of video files whose jobs before `v` all start and exit
zero, each of those is started and announced, in order.  If `v` succeeds too,
the walk goes on with the files after it.  If `v` fails at the pipe, at the
start or at the wait, the walk ends with exactly that error and nothing of the
later files happens: the events are those of the earlier jobs, followed by the
start of `v` unless the pipe already failed. -/
theorem job_outcome_propagation (env : GoEnv) (flags : Flags) (pre post : List Visit)
    (v : Visit)
    (hpre : ∀ u ∈ pre, u.isVideoFile env ∧ u.child.pipeErr = none ∧
      u.child.startErr = none ∧ u.child.waitErr = none)
    (hv : v.isVideoFile env) :
    (v.child.pipeErr = none → v.child.startErr = none → v.child.waitErr = none →
      Walk (walkFn env flags) (pre ++ v :: post) =
        ((pre ++ [v]).flatMap (fun u => [Event.start (jobArgs env flags u),
            Event.print (doneMessage u.path (outputPath env flags.codec u.path))])
          ++ (Walk (walkFn env flags) post).1, (Walk (walkFn env flags) post).2)) ∧
    (∀ err, v.child.pipeErr = some err →
      Walk (walkFn env flags) (pre ++ v :: post) =
        (pre.flatMap (fun u => [Event.start (jobArgs env flags u),
            Event.print (doneMessage u.path (outputPath env flags.codec u.path))]),
          some err)) ∧
    (∀ err, v.child.pipeErr = none →
      (v.child.startErr = some err ∨
        (v.child.startErr = none ∧ v.child.waitErr = some err)) →
      Walk (walkFn env flags) (pre ++ v :: post) =
        (pre.flatMap (fun u => [Event.start (jobArgs env flags u),
            Event.print (doneMessage u.path (outputPath env flags.codec u.path))])
          ++ [Event.start (jobArgs env flags v)], some err)) := by
  obtain ⟨he, hd, hx⟩ := hv
  refine ⟨?_, ?_, ?_⟩
  · intro hp hs hw
    have h := Walk_all_ok env flags (pre ++ [v]) post (by
      intro u hu
      rcases List.mem_append.mp hu with hu | hu
      · exact hpre u hu
      · rw [List.mem_singleton] at hu
        subst hu
        exact ⟨⟨he, hd, hx⟩, hp, hs, hw⟩)
    simpa using h
  · intro err hp
    rw [Walk_all_ok env flags pre (v :: post) hpre]
    have hfn : walkFn env flags v = ([], some err) := by
      unfold walkFn
      simp [he, hd, hx, hp]
    simp [Walk, hfn]
  · intro err hp hsw
    rw [Walk_all_ok env flags pre (v :: post) hpre]
    have hfn : walkFn env flags v = ([Event.start (jobArgs env flags v)], some err) := by
      unfold walkFn jobArgs
      rcases hsw with hs | ⟨hs, hw⟩
      · simp [he, hd, hx, hp, hs]
      · simp [he, hd, hx, hp, hs, hw]
    simp [Walk, hfn]

/-- Witness for C8: `a.mkv` converts, `b.mp4` exits with status 1, and `c.avi`
is never started. -/
theorem job_outcome_propagation_witness :
    failChild.waitErr = some "exit status 1" ∧
      ∀ toLowerTable : Char → Char,
        Walk (walkFn (unixEnv toLowerTable) defaultFlags)
            ([fileVisit "a.mkv" okChild] ++ fileVisit "b.mp4" failChild ::
              [fileVisit "c.avi" okChild]) =
          ([Event.start ["-i", "a.mkv", "-c:v", "hevc", "-preset", "medium", "-threads", "0",
              "-crf", "28", "-c:a", "copy", "-y", "a_hevc.mp4"],
            Event.print "转换完成: a.mkv 到 a_hevc.mp4\n",
            Event.start ["-i", "b.mp4", "-c:v", "hevc", "-preset", "medium", "-threads", "0",
              "-crf", "28", "-c:a", "copy", "-y", "b_hevc.mp4"]],
           some "exit status 1") :=
  ⟨rfl, fun toLowerTable =>
    (job_outcome_propagation (unixEnv toLowerTable) defaultFlags [fileVisit "a.mkv" okChild]
      [fileVisit "c.avi" okChild] (fileVisit "b.mp4" failChild)
      (fun u hu => by
        rw [List.mem_singleton] at hu
        subst hu
        exact ⟨⟨rfl, rfl, rfl⟩, rfl, rfl, rfl⟩)
      ⟨rfl, rfl, rfl⟩).2.2 "exit status 1" rfl (Or.inr ⟨rfl, rfl⟩)⟩

/-- The two setup failures end the run with exit code 1 before any child is
started. -/
theorem setup_failure_exit (env : GoEnv) (flags : Flags) (visits : List Visit) :
    (∀ err, main env flags ⟨Except.error err, visits⟩ =
      ⟨[Event.print ("检查编码器列表时出错:  " ++ err ++ "\n")], 1⟩) ∧
    (∀ out, Contains out flags.codec = false →
      (main env flags ⟨Except.ok out, visits⟩).exitCode = 1) := by
  refine ⟨fun err => rfl, fun out h => ?_⟩
  simp [main, h]

/-- C9, evaluated where it fails: the encoder check passes, the walk returns an
error (the child exits non-zero, or the walk itself passes an error to the
callback), `main` prints it and returns, and the exit code is 0. -/
theorem walk_error_exit_code (toLowerTable : Char → Char) :
    main (unixEnv toLowerTable) defaultFlags
        ⟨Except.ok nvencListing, [fileVisit "a.mkv" failChild]⟩ =
      ⟨[Event.start ["-i", "a.mkv", "-c:v", "hevc", "-preset", "medium", "-threads", "0",
          "-crf", "28", "-c:a", "copy", "-y", "a_hevc.mp4"],
        Event.print "转换错误:  exit status 1\n"], 0⟩ ∧
    main (unixEnv toLowerTable) defaultFlags ⟨Except.ok nvencListing,
        [⟨"./locked", true, some "open ./locked: permission denied", fun _ => false,
          subtitleExtKeys, okChild⟩]⟩ =
      ⟨[Event.print "转换错误:  open ./locked: permission denied\n"], 0⟩ :=
  ⟨rfl, rfl⟩

/-! ## The stream drainer -/

theorem forwarded_append (a b : List Out) : forwarded (a ++ b) = forwarded a ++ forwarded b := by
  simp [forwarded]

theorem forwarded_drainLine (line : String) : forwarded (drainLine line) = [line] := by
  unfold drainLine
  rw [forwarded_append]
  simp only [forwarded]
  split_ifs <;> simp

theorem forwarded_drainLoop (tokens : List String) : forwarded (drainLoop tokens) = tokens := by
  induction tokens with
  | nil => rfl
  | cons line rest ih =>
    simp only [drainLoop]
    rw [forwarded_append, forwarded_drainLine, ih]
    rfl

theorem utf8Len_reverse (cs : List Char) : utf8Len cs.reverse = utf8Len cs := by
  unfold utf8Len
  rw [List.map_reverse, List.sum_reverse]

theorem utf8Len_replicate (n : Nat) (c : Char) :
    utf8Len (List.replicate n c) = n * c.utf8Size := by
  unfold utf8Len
  simp [List.map_replicate, List.sum_replicate]

/-- One line of the stream: the text up to the first newline is the next token
unless it fills the buffer, and scanning goes on behind the newline. -/
theorem scanLines_line (line rest pending : List Char) (hn : '\n' ∉ line) :
    scanLines (line ++ '\n' :: rest) pending =
      if maxScanTokenSize ≤ utf8Len (line.reverse ++ pending) then []
      else String.mk (dropCR (line.reverse ++ pending).reverse) :: scanLines rest [] := by
  induction line generalizing pending with
  | nil => simp [scanLines]
  | cons a t ih =>
    have ha : a ≠ '\n' := fun h => hn (by simp [h])
    have ht : '\n' ∉ t := fun h => hn (List.mem_cons_of_mem _ h)
    change scanLines (a :: (t ++ '\n' :: rest)) pending = _
    rw [scanLines, if_neg ha, ih (a :: pending) ht]
    simp only [List.reverse_cons, List.append_assoc, List.singleton_append]

theorem scanLines_line_nil (line rest : List Char) (hn : '\n' ∉ line) :
    scanLines (line ++ '\n' :: rest) [] =
      if maxScanTokenSize ≤ utf8Len line then []
      else String.mk (dropCR line) :: scanLines rest [] := by
  rw [scanLines_line line rest [] hn]
  simp only [List.append_nil, List.reverse_reverse, utf8Len_reverse]

theorem scanLines_joinLines (lines : List String)
    (h : ∀ l ∈ lines, '\n' ∉ l.data ∧ l.data.getLast? ≠ some '\r' ∧
      utf8Len l.data < maxScanTokenSize) :
    scanLines (joinLines lines).data [] = lines := by
  induction lines with
  | nil => simp [joinLines, scanLines]
  | cons l rest ih =>
    obtain ⟨h1, h2, h3⟩ := h l (List.mem_cons_self _ _)
    have ih2 := ih (fun x hx => h x (List.mem_cons_of_mem _ hx))
    have hj : (joinLines (l :: rest)).data = l.data ++ '\n' :: (joinLines rest).data := by
      simp [joinLines]
    rw [hj, scanLines_line_nil _ _ h1, if_neg (by omega), ih2]
    unfold dropCR
    rw [if_neg h2]

/-- C3, as the code has it: when each of the N lines is free of newlines, does
not end in a carriage return and is shorter than 65536 bytes, and the lines
are delivered to the drainer each followed by a newline, then, whatever ends
the reads after them and whether or not the lines decode to a progress update,
the lines the drainer forwards are exactly those N lines, each once and in
order. -/
theorem drain_forwards_all (lines : List String) (err : Option GoError)
    (h : ∀ l ∈ lines, '\n' ∉ l.data ∧ l.data.getLast? ≠ some '\r' ∧
      utf8Len l.data < maxScanTokenSize) :
    forwarded (drain ⟨joinLines lines, err⟩) = lines ∧
      (forwarded (drain ⟨joinLines lines, err⟩)).length = lines.length := by
  have hf : forwarded (drain ⟨joinLines lines, err⟩) = lines := by
    unfold drain
    rw [forwarded_drainLoop]
    exact scanLines_joinLines lines h
  exact ⟨hf, by rw [hf]⟩

/-- Witness for C3: three lines, one of them a progress line, read to the end of
the stream. -/
theorem drain_forwards_all_witness :
    forwarded (drain ⟨joinLines ["frame=1", "time=00:00:01.00 duration=4.0", ""], none⟩) =
        ["frame=1", "time=00:00:01.00 duration=4.0", ""] ∧
      (forwarded (drain ⟨joinLines ["frame=1", "time=00:00:01.00 duration=4.0", ""],
        none⟩)).length = 3 :=
  drain_forwards_all ["frame=1", "time=00:00:01.00 duration=4.0", ""] none (by decide)

/-- Counterexample to C3 as stated: of the three lines `before`, a line of 65536
bytes and `after`, delivered in full and followed by the end of the stream,
only `before` is forwarded, because the scanner gives up on the long line.  A
trailing carriage return is not forwarded either, and when the reads fail early
only what was delivered is forwarded. -/
theorem drain_drops_lines :
    forwarded (drain ⟨joinLines ["before", longLine, "after"], none⟩) = ["before"] ∧
      forwarded (drain ⟨joinLines ["abc\r"], none⟩) = ["abc"] ∧
      forwarded (drain ⟨"before\nsec", some "read |0: file already closed"⟩) =
        ["before", "sec"] := by
  refine ⟨?_, by decide, by decide⟩
  have hx : '\n' ∉ List.replicate 65536 'x' := by
    intro hm
    have := (List.mem_replicate.mp hm).2
    exact absurd this (by decide)
  have hlen : utf8Len (List.replicate 65536 'x') = 65536 := by
    rw [utf8Len_replicate]
    rfl
  have hj : (joinLines ["before", longLine, "after"]).data =
      "before".data ++ '\n' :: (List.replicate 65536 'x' ++ '\n' :: "after\n".data) := by
    simp only [joinLines, longLine, List.flatMap_cons, List.flatMap_nil, List.append_nil,
      List.append_assoc, List.singleton_append]
    rfl
  unfold drain
  rw [forwarded_drainLoop]
  simp only [hj]
  rw [scanLines_line_nil "before".data _ (by decide), if_neg (by decide),
    scanLines_line_nil _ _ hx, if_pos (by rw [hlen]; decide)]
  decide

/-! ## The two regular expressions -/

theorem findFirst_eq (f : List Char → List String) (cs : List Char)
    (h : findFirst f cs ≠ []) :
    ∃ pre suf, cs = pre ++ suf ∧ findFirst f cs = f suf := by
  induction cs with
  | nil => exact ⟨[], [], rfl, rfl⟩
  | cons c rest ih =>
    unfold findFirst at h ⊢
    by_cases hm : f (c :: rest) ≠ []
    · rw [if_pos hm]
      exact ⟨[], c :: rest, rfl, rfl⟩
    · rw [if_neg hm] at h ⊢
      obtain ⟨pre, suf, h1, h2⟩ := ih h
      exact ⟨c :: pre, suf, by rw [h1]; rfl, h2⟩

theorem findFirst_ne_nil (f : List Char → List String) (pre suf : List Char)
    (h : f suf ≠ []) : findFirst f (pre ++ suf) ≠ [] := by
  induction pre with
  | nil =>
    cases suf with
    | nil => exact h
    | cons c rest =>
      simp only [List.nil_append, findFirst]
      rw [if_pos h]
      exact h
  | cons c rest ih =>
    change findFirst f (c :: (rest ++ suf)) ≠ []
    rw [findFirst]
    by_cases hm : f (c :: (rest ++ suf)) ≠ []
    · rw [if_pos hm]; exact hm
    · rw [if_neg hm]; exact ih

theorem matchTimeAt_shape (cs : List Char) (h : matchTimeAt cs ≠ []) :
    ∃ (post : List Char) (h1 h2 m1 m2 s1 s2 f1 f2 : Char),
      isDigit h1 = true ∧ isDigit h2 = true ∧ isDigit m1 = true ∧ isDigit m2 = true ∧
      isDigit s1 = true ∧ isDigit s2 = true ∧ isDigit f1 = true ∧ isDigit f2 = true ∧
      cs = ("time=".data ++ [h1, h2, ':', m1, m2, ':', s1, s2, '.', f1, f2]) ++ post ∧
      matchTimeAt cs =
        [String.mk ("time=".data ++ [h1, h2, ':', m1, m2, ':', s1, s2, '.', f1, f2]),
          String.mk [h1, h2], String.mk [m1, m2], String.mk [s1, s2, '.', f1, f2]] := by
  unfold matchTimeAt at h ⊢
  by_cases hp : "time=".data.isPrefixOf cs = true
  · rw [if_pos hp] at h ⊢
    rw [List.isPrefixOf_iff_prefix] at hp
    obtain ⟨t, rfl⟩ := hp
    rw [List.drop_left' (by rfl)] at h ⊢
    match t, h with
    | h1 :: h2 :: c1 :: m1 :: m2 :: c2 :: s1 :: s2 :: p :: f1 :: f2 :: post, h =>
      simp only at h ⊢
      split at h
      · rename_i hc
        obtain ⟨a1, a2, rfl, a3, a4, rfl, a5, a6, rfl, a7, a8⟩ := hc
        refine ⟨post, h1, h2, m1, m2, s1, s2, f1, f2, a1, a2, a3, a4, a5, a6, a7, a8, ?_, ?_⟩
        · simp
        · rw [if_pos ⟨a1, a2, rfl, a3, a4, rfl, a5, a6, rfl, a7, a8⟩]
      · exact absurd rfl h
  · rw [if_neg hp] at h
    exact absurd rfl h

theorem all_takeWhile_isDigit (l : List Char) : (l.takeWhile isDigit).all isDigit = true := by
  rw [List.all_eq_true]
  intro x hx
  exact List.mem_takeWhile_imp hx

theorem matchDurationAt_shape (cs : List Char) (h : matchDurationAt cs ≠ []) :
    ∃ (post ip fp : List Char),
      ip ≠ [] ∧ fp ≠ [] ∧ ip.all isDigit = true ∧ fp.all isDigit = true ∧
      cs = ("duration=".data ++ ip ++ '.' :: fp) ++ post ∧
      matchDurationAt cs =
        [String.mk ("duration=".data ++ ip ++ '.' :: fp), String.mk (ip ++ '.' :: fp)] := by
  unfold matchDurationAt at h ⊢
  by_cases hp : "duration=".data.isPrefixOf cs = true
  · rw [if_pos hp] at h ⊢
    rw [List.isPrefixOf_iff_prefix] at hp
    obtain ⟨t, rfl⟩ := hp
    rw [List.drop_left' (by rfl)] at h ⊢
    have ht := List.takeWhile_append_dropWhile isDigit t
    cases hdw : t.dropWhile isDigit with
    | nil => rw [hdw] at h; exact absurd rfl h
    | cons c after =>
      rw [hdw] at h ht
      simp only at h ⊢
      split at h
      · rename_i hc
        obtain ⟨rfl, hip, hfp⟩ := hc
        refine ⟨after.dropWhile isDigit, t.takeWhile isDigit, after.takeWhile isDigit,
          hip, hfp, all_takeWhile_isDigit _, all_takeWhile_isDigit _, ?_, ?_⟩
        · have ha := List.takeWhile_append_dropWhile isDigit after
          conv_lhs => rw [← ht, ← ha]
          simp [List.append_assoc]
        · rw [if_pos ⟨rfl, hip, hfp⟩]
      · exact absurd rfl h
  · rw [if_neg hp] at h
    exact absurd rfl h

theorem reTimeFind_shape (line : String) (h : reTimeFind line ≠ []) :
    ∃ (pre post : List Char) (h1 h2 m1 m2 s1 s2 f1 f2 : Char),
      isDigit h1 = true ∧ isDigit h2 = true ∧ isDigit m1 = true ∧ isDigit m2 = true ∧
      isDigit s1 = true ∧ isDigit s2 = true ∧ isDigit f1 = true ∧ isDigit f2 = true ∧
      line.data = pre ++ ("time=".data ++ [h1, h2, ':', m1, m2, ':', s1, s2, '.', f1, f2]) ++ post ∧
      reTimeFind line =
        [String.mk ("time=".data ++ [h1, h2, ':', m1, m2, ':', s1, s2, '.', f1, f2]),
          String.mk [h1, h2], String.mk [m1, m2], String.mk [s1, s2, '.', f1, f2]] := by
  unfold reTimeFind at h ⊢
  obtain ⟨pre, suf, hcs, hf⟩ := findFirst_eq _ _ h
  rw [hf] at h ⊢
  obtain ⟨post, h1, h2, m1, m2, s1, s2, f1, f2, a1, a2, a3, a4, a5, a6, a7, a8, hs, hm⟩ :=
    matchTimeAt_shape suf h
  exact ⟨pre, post, h1, h2, m1, m2, s1, s2, f1, f2, a1, a2, a3, a4, a5, a6, a7, a8,
    by rw [hcs, hs]; simp only [List.append_assoc], hm⟩

theorem reDurationFind_shape (line : String) (h : reDurationFind line ≠ []) :
    ∃ (pre post ip fp : List Char),
      ip ≠ [] ∧ fp ≠ [] ∧ ip.all isDigit = true ∧ fp.all isDigit = true ∧
      line.data = pre ++ ("duration=".data ++ ip ++ '.' :: fp) ++ post ∧
      reDurationFind line =
        [String.mk ("duration=".data ++ ip ++ '.' :: fp), String.mk (ip ++ '.' :: fp)] := by
  unfold reDurationFind at h ⊢
  obtain ⟨pre, suf, hcs, hf⟩ := findFirst_eq _ _ h
  rw [hf] at h ⊢
  obtain ⟨post, ip, fp, b1, b2, b3, b4, hs, hm⟩ := matchDurationAt_shape suf h
  exact ⟨pre, post, ip, fp, b1, b2, b3, b4, by rw [hcs, hs]; simp only [List.append_assoc], hm⟩

/-- C4: a line that lacks the `time=` marker or the `duration=` marker, or in
which no text matches `time=\d{2}:\d{2}:\d{2}\.\d{2}` or none matches
`duration=\d+\.\d+`, yields no progress update: the only write it causes is
the line itself, forwarded to the sink. -/
theorem undecodable_line_skipped (line : String)
    (h : Contains line "time=" = false ∨ Contains line "duration=" = false ∨
      ¬ TimePatternOccurs line ∨ ¬ DurationPatternOccurs line) :
    drainLine line = [Out.line line] ∧ progressUpdates (drainLine line) = [] ∧
      forwarded (drainLine line) = [line] := by
  have key : drainLine line = [Out.line line] := by
    unfold drainLine
    by_cases hc : Contains line "time=" = true ∧ Contains line "duration=" = true
    · rw [if_pos hc]
      have hlen : ¬ ((reTimeFind line).length = 4 ∧ (reDurationFind line).length = 2) := by
        rintro ⟨h4, h2⟩
        have ht : reTimeFind line ≠ [] := by
          intro h0; rw [h0] at h4; simp at h4
        have hd : reDurationFind line ≠ [] := by
          intro h0; rw [h0] at h2; simp at h2
        rcases h with h | h | h | h
        · rw [hc.1] at h; exact Bool.noConfusion h
        · rw [hc.2] at h; exact Bool.noConfusion h
        · obtain ⟨pre, post, h1, h2, m1, m2, s1, s2, f1, f2, a1, a2, a3, a4, a5, a6, a7, a8,
            hl, _⟩ := reTimeFind_shape line ht
          exact h ⟨pre, post, h1, h2, m1, m2, s1, s2, f1, f2, a1, a2, a3, a4, a5, a6, a7, a8, hl⟩
        · obtain ⟨pre, post, ip, fp, b1, b2, b3, b4, hl, _⟩ := reDurationFind_shape line hd
          exact h ⟨pre, post, ip, fp, b1, b2, b3, b4, hl⟩
      simp only [if_neg hlen, List.nil_append]
    · rw [if_neg hc]
      rfl
  rw [key]
  exact ⟨rfl, rfl, rfl⟩

/-- Witness for C4: a line without either marker. -/
theorem undecodable_line_skipped_witness :
    drainLine "frame=  100 fps= 10 q=10.0" = [Out.line "frame=  100 fps= 10 q=10.0"] ∧
      progressUpdates (drainLine "frame=  100 fps= 10 q=10.0") = [] ∧
      forwarded (drainLine "frame=  100 fps= 10 q=10.0") = ["frame=  100 fps= 10 q=10.0"] :=
  undecodable_line_skipped "frame=  100 fps= 10 q=10.0" (Or.inl (by decide))

/-! ## Rounding to `float64` -/

theorem bitLengthAux_zero (fuel : Nat) : bitLengthAux fuel 0 = 0 := by
  cases fuel <;> simp [bitLengthAux]

theorem bitLengthAux_spec (fuel n : Nat) (hf : n ≤ fuel) (hn : 0 < n) :
    n < 2 ^ bitLengthAux fuel n ∧ 2 ^ bitLengthAux fuel n ≤ 2 * n := by
  induction fuel generalizing n with
  | zero => omega
  | succ f ih =>
    have hne : n ≠ 0 := by omega
    simp only [bitLengthAux, if_neg hne]
    by_cases h2 : n / 2 = 0
    · rw [h2, bitLengthAux_zero]
      have : n = 1 := by omega
      subst this
      simp
    · have h := ih (n / 2) (by omega) (by omega)
      rw [pow_succ]
      omega

theorem bitLength_spec (n : Nat) (hn : 0 < n) :
    n < 2 ^ bitLength n ∧ 2 ^ bitLength n ≤ 2 * n :=
  bitLengthAux_spec n n (le_refl n) hn

theorem scale_ratio (n d : Nat) (e : Int) :
    ((scaleNum n e : ℕ) : ℚ) / ((scaleDen d e : ℕ) : ℚ) = (n : ℚ) / (d : ℚ) / (2 : ℚ) ^ e := by
  unfold scaleNum scaleDen
  have h2 : (2 : ℚ) ≠ 0 := by norm_num
  by_cases he : e < 0
  · rw [if_pos he, if_pos he]
    have : (e.natAbs : Int) = -e := by omega
    have hz : (2 : ℚ) ^ e.natAbs = ((2 : ℚ) ^ e)⁻¹ := by
      rw [← zpow_natCast, this, zpow_neg]
    push_cast
    rw [hz]
    field_simp
    ring
  · rw [if_neg he, if_neg he]
    have : (e.natAbs : Int) = e := by omega
    have hz : (2 : ℚ) ^ e.natAbs = (2 : ℚ) ^ e := by
      rw [← zpow_natCast, this]
    push_cast
    rw [hz]
    field_simp

theorem scaleDen_pos (d : Nat) (e : Int) (hd : 0 < d) : 0 < scaleDen d e := by
  unfold scaleDen
  split
  · exact hd
  · positivity

theorem roundHalfEven_spec (n d : Nat) (hd : 0 < d) :
    2 * (roundHalfEven n d * d) ≤ 2 * n + d ∧ 2 * n ≤ 2 * (roundHalfEven n d * d) + d := by
  have hdm := Nat.div_add_mod n d
  have hr := Nat.mod_lt n hd
  have hq : d * (n / d) = n / d * d := Nat.mul_comm _ _
  have hs : (n / d + 1) * d = n / d * d + d := by ring
  unfold roundHalfEven
  simp only
  split_ifs <;> omega

theorem floorLog2_spec (n d : Nat) (hn : 0 < n) (hd : 0 < d) :
    (2 : ℚ) ^ floorLog2 n d ≤ (n : ℚ) / d ∧ (n : ℚ) / d < (2 : ℚ) ^ (floorLog2 n d + 1) := by
  obtain ⟨hn1, hn2⟩ := bitLength_spec n hn
  obtain ⟨hd1, hd2⟩ := bitLength_spec d hd
  have hnq : (0 : ℚ) < n := by exact_mod_cast hn
  have hdq : (0 : ℚ) < d := by exact_mod_cast hd
  have hn1q : (n : ℚ) < (2 : ℚ) ^ bitLength n := by exact_mod_cast hn1
  have hn2q : (2 : ℚ) ^ bitLength n ≤ 2 * n := by exact_mod_cast hn2
  have hd1q : (d : ℚ) < (2 : ℚ) ^ bitLength d := by exact_mod_cast hd1
  have hd2q : (2 : ℚ) ^ bitLength d ≤ 2 * d := by exact_mod_cast hd2
  have hA : (0 : ℚ) < (2 : ℚ) ^ bitLength n := by positivity
  have hB : (0 : ℚ) < (2 : ℚ) ^ bitLength d := by positivity
  have h2 : (2 : ℚ) ≠ 0 := by norm_num
  have hl : (2 : ℚ) ^ ((bitLength n : Int) - (bitLength d : Int)) =
      (2 : ℚ) ^ bitLength n / (2 : ℚ) ^ bitLength d := by
    rw [zpow_sub₀ h2, zpow_natCast, zpow_natCast]
  have hl1 : (2 : ℚ) ^ ((bitLength n : Int) - (bitLength d : Int) + 1) =
      (2 : ℚ) ^ bitLength n / (2 : ℚ) ^ bitLength d * 2 := by
    rw [zpow_add₀ h2, hl, zpow_one]
  have hl0 : (2 : ℚ) ^ ((bitLength n : Int) - (bitLength d : Int) - 1) =
      (2 : ℚ) ^ bitLength n / (2 : ℚ) ^ bitLength d / 2 := by
    rw [zpow_sub₀ h2, hl, zpow_one]
  have hsd := scaleDen_pos d ((bitLength n : Int) - (bitLength d : Int)) hd
  have hsdq : (0 : ℚ) < (scaleDen d ((bitLength n : Int) - (bitLength d : Int)) : ℕ) := by
    exact_mod_cast hsd
  have hratio := scale_ratio n d ((bitLength n : Int) - (bitLength d : Int))
  unfold floorLog2
  simp only
  split
  · rename_i ht
    have htq : ((scaleDen d ((bitLength n : Int) - (bitLength d : Int)) : ℕ) : ℚ) ≤
        (scaleNum n ((bitLength n : Int) - (bitLength d : Int)) : ℕ) := by exact_mod_cast ht
    have h1 : (1 : ℚ) ≤ (n : ℚ) / d / (2 : ℚ) ^ ((bitLength n : Int) - (bitLength d : Int)) := by
      rw [← hratio, le_div_iff₀ hsdq]
      simpa using htq
    rw [hl] at h1
    rw [hl, hl1]
    constructor
    · rw [le_div_iff₀ (by positivity)] at h1
      linarith
    · rw [div_lt_iff₀ hdq, div_mul_eq_mul_div, div_mul_eq_mul_div, lt_div_iff₀ hB]
      nlinarith
  · rename_i ht
    have htq : ((scaleNum n ((bitLength n : Int) - (bitLength d : Int)) : ℕ) : ℚ) <
        (scaleDen d ((bitLength n : Int) - (bitLength d : Int)) : ℕ) := by
      exact_mod_cast Nat.lt_of_not_le ht
    have h1 : (n : ℚ) / d / (2 : ℚ) ^ ((bitLength n : Int) - (bitLength d : Int)) < 1 := by
      rw [← hratio, div_lt_iff₀ hsdq]
      simpa using htq
    rw [hl] at h1
    rw [sub_add_cancel, hl, hl0]
    constructor
    · rw [div_div, div_le_div_iff₀ (by positivity) hdq]
      nlinarith
    · rw [div_lt_iff₀ (by positivity)] at h1
      linarith

theorem roundRat_spec (neg : Bool) (n d : Nat) (hd : 0 < d)
    (hx : n = 0 ∨ ((2 : ℚ) ^ (-1022 : ℤ) ≤ (n : ℚ) / d ∧ (n : ℚ) / d < (2 : ℚ) ^ (1023 : ℤ))) :
    ∃ m e, roundRat neg n d = F64.fin neg m e ∧
      (n : ℚ) / d * (1 - unitRoundoff) ≤ (m : ℚ) * (2 : ℚ) ^ e ∧
      (m : ℚ) * (2 : ℚ) ^ e ≤ (n : ℚ) / d * (1 + unitRoundoff) := by
  by_cases hn0 : n = 0
  · refine ⟨0, -1074, ?_, ?_, ?_⟩
    · simp [roundRat, hn0]
    · simp [hn0]
    · simp [hn0]
  · have hn : 0 < n := Nat.pos_of_ne_zero hn0
    obtain ⟨hlo, hhi⟩ := hx.resolve_left hn0
    obtain ⟨hL1, hL2⟩ := floorLog2_spec n d hn hd
    have h12 : (1 : ℚ) < 2 := by norm_num
    have h2 : (2 : ℚ) ≠ 0 := by norm_num
    have hLlo : -1022 ≤ floorLog2 n d := by
      have := lt_of_le_of_lt hlo hL2
      rw [zpow_lt_zpow_iff_right₀ h12] at this
      omega
    have hLhi : floorLog2 n d ≤ 1022 := by
      have := lt_of_le_of_lt hL1 hhi
      rw [zpow_lt_zpow_iff_right₀ h12] at this
      omega
    have he : max (floorLog2 n d - 52) (-1074) = floorLog2 n d - 52 := by
      apply max_eq_left
      omega
    have hE : (0 : ℚ) < (2 : ℚ) ^ (floorLog2 n d - 52) := by positivity
    have hLE : (2 : ℚ) ^ floorLog2 n d = (2 : ℚ) ^ (floorLog2 n d - 52) * 2 ^ 52 := by
      rw [← zpow_natCast, ← zpow_add₀ h2]
      congr 1
      omega
    have hL1E : (2 : ℚ) ^ (floorLog2 n d + 1) = (2 : ℚ) ^ (floorLog2 n d - 52) * 2 ^ 53 := by
      rw [← zpow_natCast, ← zpow_add₀ h2]
      congr 1
      omega
    have hE1 : (2 : ℚ) ^ (floorLog2 n d - 52 + 1) = (2 : ℚ) ^ (floorLog2 n d - 52) * 2 := by
      rw [zpow_add₀ h2, zpow_one]
    have hD := scaleDen_pos d (floorLog2 n d - 52) hd
    have hDq : (0 : ℚ) < (scaleDen d (floorLog2 n d - 52) : ℕ) := by exact_mod_cast hD
    have hratio := scale_ratio n d (floorLog2 n d - 52)
    obtain ⟨hr1, hr2⟩ := roundHalfEven_spec (scaleNum n (floorLog2 n d - 52))
      (scaleDen d (floorLog2 n d - 52)) hD
    have hr1q : (2 : ℚ) * ((roundHalfEven (scaleNum n (floorLog2 n d - 52))
        (scaleDen d (floorLog2 n d - 52)) : ℕ) * (scaleDen d (floorLog2 n d - 52) : ℕ)) ≤
        2 * (scaleNum n (floorLog2 n d - 52) : ℕ) + (scaleDen d (floorLog2 n d - 52) : ℕ) := by
      exact_mod_cast hr1
    have hr2q : (2 : ℚ) * (scaleNum n (floorLog2 n d - 52) : ℕ) ≤
        2 * ((roundHalfEven (scaleNum n (floorLog2 n d - 52))
        (scaleDen d (floorLog2 n d - 52)) : ℕ) * (scaleDen d (floorLog2 n d - 52) : ℕ)) +
        (scaleDen d (floorLog2 n d - 52) : ℕ) := by
      exact_mod_cast hr2
    have hN : ((scaleNum n (floorLog2 n d - 52) : ℕ) : ℚ) =
        (n : ℚ) / d / (2 : ℚ) ^ (floorLog2 n d - 52) * (scaleDen d (floorLog2 n d - 52) : ℕ) := by
      rw [← hratio]
      field_simp
    generalize hm : roundHalfEven (scaleNum n (floorLog2 n d - 52))
        (scaleDen d (floorLog2 n d - 52)) = m at hr1q hr2q
    generalize hDD : ((scaleDen d (floorLog2 n d - 52) : ℕ) : ℚ) = D at hr1q hr2q hN hDq
    generalize hNN : ((scaleNum n (floorLog2 n d - 52) : ℕ) : ℚ) = N at hr1q hr2q hN
    generalize hxx : (n : ℚ) / d = x at *
    generalize hEE : (2 : ℚ) ^ (floorLog2 n d - 52) = E at *
    -- with y = x / E: 2 m ≤ 2 y + 1 and 2 y ≤ 2 m + 1
    have hy1 : (2 : ℚ) * m * E ≤ 2 * x + E := by
      have : (2 : ℚ) * m * D ≤ (2 * (x / E) + 1) * D := by rw [hN] at hr1q; linarith
      have h3 := le_of_mul_le_mul_right this hDq
      have h4 := mul_le_mul_of_nonneg_right h3 hE.le
      have h5 : (2 * (x / E) + 1) * E = 2 * x + E := by field_simp
      linarith
    have hy2 : (2 : ℚ) * x ≤ 2 * m * E + E := by
      have : (2 * (x / E)) * D ≤ (2 * (m : ℚ) + 1) * D := by rw [hN] at hr2q; linarith
      have h3 := le_of_mul_le_mul_right this hDq
      have h4 := mul_le_mul_of_nonneg_right h3 hE.le
      have h5 : (2 * (x / E)) * E = 2 * x := by field_simp
      linarith
    have hu : unitRoundoff = 1 / 2 ^ 53 := rfl
    have hxE : E / 2 ≤ x * unitRoundoff := by
      rw [hu]
      have : E * 2 ^ 52 ≤ x := by rw [← hLE]; exact hL1
      have h53 : (2 : ℚ) ^ 53 = 2 ^ 52 * 2 := by norm_num
      rw [h53]
      have : E / 2 = E * 2 ^ 52 * (1 / (2 ^ 52 * 2)) := by field_simp; ring
      rw [this]
      apply mul_le_mul_of_nonneg_right ‹E * 2 ^ 52 ≤ x›
      positivity
    have hmle : m ≤ 2 ^ 53 := by
      have h1 : (2 : ℚ) * m * E < (2 * 2 ^ 53 + 1) * E := by
        have : x < E * 2 ^ 53 := by rw [← hL1E]; exact hL2
        linarith
      have h2 : (2 : ℚ) * m < 2 * 2 ^ 53 + 1 := lt_of_mul_lt_mul_right h1 hE.le
      have h3 : (2 * m : ℕ) < 2 * 2 ^ 53 + 1 := by exact_mod_cast h2
      omega
    unfold roundRat
    rw [if_neg hn0]
    simp only [he, hm]
    by_cases hc : m = 2 ^ 53
    · refine ⟨2 ^ 52, floorLog2 n d - 52 + 1, ?_, ?_, ?_⟩
      · rw [if_pos hc, if_pos hc, if_neg (by omega)]
      · rw [hE1]
        rw [hc] at hy2
        push_cast at hy2 ⊢
        linarith
      · rw [hE1]
        rw [hc] at hy1
        push_cast at hy1 ⊢
        linarith
    · refine ⟨m, floorLog2 n d - 52, ?_, ?_, ?_⟩
      · rw [if_neg hc, if_neg hc, if_neg (by omega)]
      · rw [hEE]; linarith
      · rw [hEE]; linarith

theorem roundScaled_spec (neg : Bool) (n d : Nat) (e : Int) (hd : 0 < d)
    (hx : n = 0 ∨ ((2 : ℚ) ^ (-1022 : ℤ) ≤ (n : ℚ) / d * (2 : ℚ) ^ e ∧
      (n : ℚ) / d * (2 : ℚ) ^ e < (2 : ℚ) ^ (1023 : ℤ))) :
    ∃ m e', roundScaled neg n d e = F64.fin neg m e' ∧
      (n : ℚ) / d * (2 : ℚ) ^ e * (1 - unitRoundoff) ≤ (m : ℚ) * (2 : ℚ) ^ e' ∧
      (m : ℚ) * (2 : ℚ) ^ e' ≤ (n : ℚ) / d * (2 : ℚ) ^ e * (1 + unitRoundoff) := by
  have hr : ((scaleNum n (-e) : ℕ) : ℚ) / ((scaleDen d (-e) : ℕ) : ℚ) =
      (n : ℚ) / d * (2 : ℚ) ^ e := by
    rw [scale_ratio, zpow_neg, div_eq_mul_inv, inv_inv]
  have h := roundRat_spec neg (scaleNum n (-e)) (scaleDen d (-e)) (scaleDen_pos d (-e) hd)
    (by
      rcases hx with h0 | h1
      · left
        subst h0
        unfold scaleNum
        split <;> simp
      · right
        rw [hr]
        exact h1)
  rw [hr] at h
  exact h

/-! ## Error bounds through the arithmetic -/

theorem unitRoundoff_bounds : 0 < unitRoundoff ∧ unitRoundoff < 1 := by
  unfold unitRoundoff
  constructor <;> norm_num

theorem one_sub_pow_pos (k : Nat) : 0 < (1 - unitRoundoff) ^ k := by
  have := unitRoundoff_bounds
  apply pow_pos
  linarith

theorem one_sub_pow_le_one (k : Nat) : (1 - unitRoundoff) ^ k ≤ 1 := by
  have := unitRoundoff_bounds
  apply pow_le_one₀ <;> linarith

theorem one_sub_pow_anti {i k : Nat} (h : i ≤ k) :
    (1 - unitRoundoff) ^ k ≤ (1 - unitRoundoff) ^ i := by
  have := unitRoundoff_bounds
  apply pow_le_pow_of_le_one _ _ h <;> linarith

theorem one_sub_pow_half {k : Nat} (h : k ≤ 8) : 1 / 2 ≤ (1 - unitRoundoff) ^ k := by
  refine le_trans ?_ (one_sub_pow_anti h)
  unfold unitRoundoff
  norm_num

theorem Near.nonneg {k : Nat} {f : F64} {x : ℚ} (h : Near k f x) : 0 ≤ x := by
  obtain ⟨m, e, _, _, h2⟩ := h
  have : (0 : ℚ) ≤ (m : ℚ) * (2 : ℚ) ^ e * (1 - unitRoundoff) ^ k := by
    have := one_sub_pow_pos k
    positivity
  linarith

theorem Near.mono {i k : Nat} {f : F64} {x : ℚ} (hik : i ≤ k) (h : Near i f x) : Near k f x := by
  have hx := h.nonneg
  obtain ⟨m, e, hf, h1, h2⟩ := h
  have hv : (0 : ℚ) ≤ (m : ℚ) * (2 : ℚ) ^ e := by positivity
  refine ⟨m, e, hf, ?_, ?_⟩
  · exact le_trans (mul_le_mul_of_nonneg_left (one_sub_pow_anti hik) hx) h1
  · exact le_trans (mul_le_mul_of_nonneg_left (one_sub_pow_anti hik) hv) h2

theorem near_round (k n d : Nat) (e : Int) (x : ℚ) (hd : 0 < d) (hk : k ≤ 8)
    (hx : InRange x)
    (h1 : x * (1 - unitRoundoff) ^ k ≤ (n : ℚ) / d * (2 : ℚ) ^ e)
    (h2 : (n : ℚ) / d * (2 : ℚ) ^ e * (1 - unitRoundoff) ^ k ≤ x) :
    Near (k + 1) (roundScaled false n d e) x := by
  have hu := unitRoundoff_bounds
  have hc := one_sub_pow_pos k
  have hhalf := one_sub_pow_half hk
  have hdq : (0 : ℚ) < d := by exact_mod_cast hd
  have hE : (0 : ℚ) < (2 : ℚ) ^ e := by positivity
  have hy0 : (0 : ℚ) ≤ (n : ℚ) / d * (2 : ℚ) ^ e := by positivity
  have hrange : n = 0 ∨ ((2 : ℚ) ^ (-1022 : ℤ) ≤ (n : ℚ) / d * (2 : ℚ) ^ e ∧
      (n : ℚ) / d * (2 : ℚ) ^ e < (2 : ℚ) ^ (1023 : ℤ)) := by
    rcases hx with h0 | ⟨hlo, hhi⟩
    · left
      rw [h0] at h2
      have hy : (n : ℚ) / d * (2 : ℚ) ^ e ≤ 0 := by
        by_contra hcon
        push_neg at hcon
        have := mul_pos hcon hc
        linarith
      have hy' : (n : ℚ) / d * (2 : ℚ) ^ e = 0 := le_antisymm hy hy0
      have hnd : (n : ℚ) / d = 0 := by
        rcases mul_eq_zero.mp hy' with h | h
        · exact h
        · exact absurd h hE.ne'
      have hn : (n : ℚ) = 0 := by
        rcases div_eq_zero_iff.mp hnd with h | h
        · exact h
        · exact absurd h hdq.ne'
      exact_mod_cast hn
    · right
      have hxpos : (0 : ℚ) < x := lt_of_lt_of_le (by positivity) hlo
      have e1 : (2 : ℚ) ^ (-1022 : ℤ) = (2 : ℚ) ^ (-1021 : ℤ) / 2 := by
        rw [show (-1022 : ℤ) = -1021 - 1 by norm_num, zpow_sub₀ (by norm_num), zpow_one]
      have e2 : (2 : ℚ) ^ (1023 : ℤ) = (2 : ℚ) ^ (1022 : ℤ) * 2 := by
        rw [show (1023 : ℤ) = 1022 + 1 by norm_num, zpow_add₀ (by norm_num), zpow_one]
      rw [e1, e2]
      generalize (2 : ℚ) ^ (-1021 : ℤ) = A at hlo ⊢
      generalize (2 : ℚ) ^ (1022 : ℤ) = B at hhi ⊢
      constructor
      · have : x * (1 / 2) ≤ x * (1 - unitRoundoff) ^ k :=
          mul_le_mul_of_nonneg_left hhalf hxpos.le
        linarith
      · have : (n : ℚ) / d * (2 : ℚ) ^ e * (1 / 2) ≤
            (n : ℚ) / d * (2 : ℚ) ^ e * (1 - unitRoundoff) ^ k :=
          mul_le_mul_of_nonneg_left hhalf hy0
        linarith
  obtain ⟨m, e', hf, hb1, hb2⟩ := roundScaled_spec false n d e hd hrange
  refine ⟨m, e', hf, ?_, ?_⟩
  · rw [pow_succ]
    have := mul_le_mul_of_nonneg_right h1 (by linarith : (0 : ℚ) ≤ 1 - unitRoundoff)
    linarith
  · rw [pow_succ]
    have hv : (0 : ℚ) ≤ (m : ℚ) * (2 : ℚ) ^ e' := by positivity
    have h3 : (m : ℚ) * (2 : ℚ) ^ e' * (1 - unitRoundoff) ≤ (n : ℚ) / d * (2 : ℚ) ^ e := by
      have := mul_le_mul_of_nonneg_right hb2 (by linarith : (0 : ℚ) ≤ 1 - unitRoundoff)
      have h4 : (n : ℚ) / d * (2 : ℚ) ^ e * (1 + unitRoundoff) * (1 - unitRoundoff) ≤
          (n : ℚ) / d * (2 : ℚ) ^ e := by
        have : (1 + unitRoundoff) * (1 - unitRoundoff) ≤ 1 := by nlinarith
        calc (n : ℚ) / d * (2 : ℚ) ^ e * (1 + unitRoundoff) * (1 - unitRoundoff)
            = (n : ℚ) / d * (2 : ℚ) ^ e * ((1 + unitRoundoff) * (1 - unitRoundoff)) := by ring
          _ ≤ (n : ℚ) / d * (2 : ℚ) ^ e * 1 := mul_le_mul_of_nonneg_left this hy0
          _ = (n : ℚ) / d * (2 : ℚ) ^ e := by ring
      linarith
    calc (m : ℚ) * (2 : ℚ) ^ e' * ((1 - unitRoundoff) ^ k * (1 - unitRoundoff))
        = (m : ℚ) * (2 : ℚ) ^ e' * (1 - unitRoundoff) * (1 - unitRoundoff) ^ k := by ring
      _ ≤ (n : ℚ) / d * (2 : ℚ) ^ e * (1 - unitRoundoff) ^ k :=
          mul_le_mul_of_nonneg_right h3 hc.le
      _ ≤ x := h2

theorem near_mul {i j : Nat} {a b : F64} {xa xb : ℚ} (ha : Near i a xa) (hb : Near j b xb)
    (hk : i + j ≤ 8) (hx : InRange (xa * xb)) :
    Near (i + j + 1) (F64.mul a b) (xa * xb) := by
  have hxa := ha.nonneg
  have hxb := hb.nonneg
  obtain ⟨m, e, rfl, ha1, ha2⟩ := ha
  obtain ⟨m', e', rfl, hb1, hb2⟩ := hb
  have hci := one_sub_pow_pos i
  have hcj := one_sub_pow_pos j
  have hva : (0 : ℚ) ≤ (m : ℚ) * (2 : ℚ) ^ e := by positivity
  have hvb : (0 : ℚ) ≤ (m' : ℚ) * (2 : ℚ) ^ e' := by positivity
  have hy : ((m * m' : ℕ) : ℚ) / (1 : ℕ) * (2 : ℚ) ^ (e + e') =
      ((m : ℚ) * (2 : ℚ) ^ e) * ((m' : ℚ) * (2 : ℚ) ^ e') := by
    rw [zpow_add₀ (by norm_num)]
    push_cast
    ring
  have hmul : F64.mul (F64.fin false m e) (F64.fin false m' e') =
      roundScaled false (m * m') 1 (e + e') := rfl
  rw [hmul]
  apply near_round (i + j) (m * m') 1 (e + e') (xa * xb) (by norm_num) hk hx
  · rw [hy, pow_add]
    calc xa * xb * ((1 - unitRoundoff) ^ i * (1 - unitRoundoff) ^ j)
        = (xa * (1 - unitRoundoff) ^ i) * (xb * (1 - unitRoundoff) ^ j) := by ring
      _ ≤ ((m : ℚ) * (2 : ℚ) ^ e) * ((m' : ℚ) * (2 : ℚ) ^ e') :=
          mul_le_mul ha1 hb1 (by positivity) hva
  · rw [hy, pow_add]
    calc ((m : ℚ) * (2 : ℚ) ^ e) * ((m' : ℚ) * (2 : ℚ) ^ e') *
          ((1 - unitRoundoff) ^ i * (1 - unitRoundoff) ^ j)
        = ((m : ℚ) * (2 : ℚ) ^ e * (1 - unitRoundoff) ^ i) *
          ((m' : ℚ) * (2 : ℚ) ^ e' * (1 - unitRoundoff) ^ j) := by ring
      _ ≤ xa * xb := mul_le_mul ha2 hb2 (by positivity) hxa

theorem near_div {i j : Nat} {a b : F64} {xa xb : ℚ} (ha : Near i a xa) (hb : Near j b xb)
    (hxb : 0 < xb) (hk : i + j ≤ 8) (hx : InRange (xa / xb)) :
    Near (i + j + 1) (F64.div a b) (xa / xb) := by
  have hxa := ha.nonneg
  obtain ⟨m, e, rfl, ha1, ha2⟩ := ha
  obtain ⟨m', e', rfl, hb1, hb2⟩ := hb
  have hci := one_sub_pow_pos i
  have hcj := one_sub_pow_pos j
  have hva : (0 : ℚ) ≤ (m : ℚ) * (2 : ℚ) ^ e := by positivity
  have hvbpos : (0 : ℚ) < (m' : ℚ) * (2 : ℚ) ^ e' :=
    lt_of_lt_of_le (mul_pos hxb hcj) hb1
  have hm' : m' ≠ 0 := by
    rintro rfl
    simp at hvbpos
  have hm'pos : 0 < m' := Nat.pos_of_ne_zero hm'
  have hy : ((m : ℕ) : ℚ) / (m' : ℕ) * (2 : ℚ) ^ (e - e') =
      ((m : ℚ) * (2 : ℚ) ^ e) / ((m' : ℚ) * (2 : ℚ) ^ e') := by
    rw [zpow_sub₀ (by norm_num)]
    have : (m' : ℚ) ≠ 0 := by exact_mod_cast hm'
    field_simp
  have hdiv : F64.div (F64.fin false m e) (F64.fin false m' e') =
      roundScaled false m m' (e - e') := by
    simp [F64.div, hm']
  rw [hdiv]
  apply near_round (i + j) m m' (e - e') (xa / xb) hm'pos hk hx
  · rw [hy, pow_add, div_mul_eq_mul_div, div_le_div_iff₀ hxb hvbpos]
    calc xa * ((1 - unitRoundoff) ^ i * (1 - unitRoundoff) ^ j) * ((m' : ℚ) * (2 : ℚ) ^ e')
        = (xa * (1 - unitRoundoff) ^ i) * ((m' : ℚ) * (2 : ℚ) ^ e' * (1 - unitRoundoff) ^ j) := by
          ring
      _ ≤ ((m : ℚ) * (2 : ℚ) ^ e) * xb := mul_le_mul ha1 hb2 (by positivity) hva
  · rw [hy, pow_add, div_mul_eq_mul_div, div_le_div_iff₀ hvbpos hxb]
    calc (m : ℚ) * (2 : ℚ) ^ e * ((1 - unitRoundoff) ^ i * (1 - unitRoundoff) ^ j) * xb
        = ((m : ℚ) * (2 : ℚ) ^ e * (1 - unitRoundoff) ^ i) * (xb * (1 - unitRoundoff) ^ j) := by
          ring
      _ ≤ xa * ((m' : ℚ) * (2 : ℚ) ^ e') := mul_le_mul ha2 hb1 (by positivity) hxa

theorem near_add {k : Nat} {a b : F64} {xa xb : ℚ} (ha : Near k a xa) (hb : Near k b xb)
    (hk : k ≤ 8) (hx : InRange (xa + xb)) :
    Near (k + 1) (F64.add a b) (xa + xb) := by
  have hxa := ha.nonneg
  have hxb := hb.nonneg
  obtain ⟨m, e, rfl, ha1, ha2⟩ := ha
  obtain ⟨m', e', rfl, hb1, hb2⟩ := hb
  have hc := one_sub_pow_pos k
  have h2 : (2 : ℚ) ≠ 0 := by norm_num
  have hp : (2 : ℚ) ^ (e - min e e').natAbs * (2 : ℚ) ^ (min e e') = (2 : ℚ) ^ e := by
    rw [← zpow_natCast, ← zpow_add₀ h2]
    congr 1
    have : ((e - min e e').natAbs : Int) = e - min e e' := by
      have := min_le_left e e'
      omega
    omega
  have hq : (2 : ℚ) ^ (e' - min e e').natAbs * (2 : ℚ) ^ (min e e') = (2 : ℚ) ^ e' := by
    rw [← zpow_natCast, ← zpow_add₀ h2]
    congr 1
    have : ((e' - min e e').natAbs : Int) = e' - min e e' := by
      have := min_le_right e e'
      omega
    omega
  have hsum : (((m * 2 ^ (e - min e e').natAbs + m' * 2 ^ (e' - min e e').natAbs : ℕ) : ℚ))
      / (1 : ℕ) * (2 : ℚ) ^ (min e e') = (m : ℚ) * (2 : ℚ) ^ e + (m' : ℚ) * (2 : ℚ) ^ e' := by
    push_cast
    rw [← hp, ← hq]
    ring
  have hint : ((1 : Int) * ((m * 2 ^ (e - min e e').natAbs : ℕ) : Int) +
      (1 : Int) * ((m' * 2 ^ (e' - min e e').natAbs : ℕ) : Int)) =
      ((m * 2 ^ (e - min e e').natAbs + m' * 2 ^ (e' - min e e').natAbs : ℕ) : Int) := by
    push_cast
    ring
  by_cases hz : m * 2 ^ (e - min e e').natAbs + m' * 2 ^ (e' - min e e').natAbs = 0
  · have hadd : F64.add (F64.fin false m e) (F64.fin false m' e') = F64.fin false 0 (-1074) := by
      simp only [F64.add, Bool.false_eq_true, if_false, hint, hz]
      simp
    rw [hadd]
    have hm0 : m = 0 := by
      have : m * 2 ^ (e - min e e').natAbs = 0 := by omega
      rcases Nat.mul_eq_zero.mp this with h | h
      · exact h
      · exact absurd h (by positivity)
    have hm0' : m' = 0 := by
      have : m' * 2 ^ (e' - min e e').natAbs = 0 := by omega
      rcases Nat.mul_eq_zero.mp this with h | h
      · exact h
      · exact absurd h (by positivity)
    subst hm0 hm0'
    simp only [Nat.cast_zero, zero_mul] at ha1 hb1
    have hxa0 : xa = 0 := by
      by_contra hne
      have : 0 < xa := lt_of_le_of_ne hxa (Ne.symm hne)
      have := mul_pos this hc
      linarith
    have hxb0 : xb = 0 := by
      by_contra hne
      have : 0 < xb := lt_of_le_of_ne hxb (Ne.symm hne)
      have := mul_pos this hc
      linarith
    refine ⟨0, -1074, rfl, ?_, ?_⟩ <;> simp [hxa0, hxb0]
  · have hadd : F64.add (F64.fin false m e) (F64.fin false m' e') =
        roundScaled false (m * 2 ^ (e - min e e').natAbs + m' * 2 ^ (e' - min e e').natAbs) 1
          (min e e') := by
      have hne : ¬ ((m * 2 ^ (e - min e e').natAbs + m' * 2 ^ (e' - min e e').natAbs : ℕ) : Int)
          = 0 := by exact_mod_cast hz
      have hnl : ¬ ((m * 2 ^ (e - min e e').natAbs + m' * 2 ^ (e' - min e e').natAbs : ℕ) : Int)
          < 0 := by
        have := Int.natCast_nonneg (m * 2 ^ (e - min e e').natAbs + m' * 2 ^ (e' - min e e').natAbs)
        omega
      simp only [F64.add, Bool.false_eq_true, if_false, hint, if_neg hne, decide_eq_false hnl,
        Int.natAbs_ofNat]
    rw [hadd]
    apply near_round k _ 1 (min e e') (xa + xb) (by norm_num) hk hx
    · rw [hsum, add_mul]
      linarith
    · rw [hsum, add_mul]
      linarith

/-! ## Parsing the captured groups -/

theorem isDigit_iff (c : Char) : isDigit c = true ↔ 48 ≤ c.toNat ∧ c.toNat ≤ 57 := by
  unfold isDigit
  simp

theorem isDigit_ne (c : Char) (h : isDigit c = true) : c ≠ '-' ∧ c ≠ '+' ∧ c ≠ '.' := by
  rw [isDigit_iff] at h
  refine ⟨?_, ?_, ?_⟩ <;> (rintro rfl; revert h; decide)

theorem digitVal_le (c : Char) (h : isDigit c = true) : digitVal c ≤ 9 := by
  rw [isDigit_iff] at h
  unfold digitVal
  have : '0'.toNat = 48 := rfl
  omega

theorem takeWhile_digits (ip : List Char) (c : Char) (rest : List Char)
    (hip : ip.all isDigit = true) (hc : isDigit c = false) :
    (ip ++ c :: rest).takeWhile isDigit = ip ∧ (ip ++ c :: rest).dropWhile isDigit = c :: rest := by
  induction ip with
  | nil => simp [List.takeWhile, List.dropWhile, hc]
  | cons a t ih =>
    simp only [List.all_cons, Bool.and_eq_true] at hip
    obtain ⟨h1, h2⟩ := ih hip.2
    simp [List.takeWhile, List.dropWhile, hip.1, h1, h2]

theorem takeWhile_all_digits (l : List Char) (h : l.all isDigit = true) :
    l.takeWhile isDigit = l ∧ l.dropWhile isDigit = [] := by
  induction l with
  | nil => simp
  | cons a t ih =>
    simp only [List.all_cons, Bool.and_eq_true] at h
    obtain ⟨h1, h2⟩ := ih h.2
    simp [List.takeWhile, List.dropWhile, h.1, h1, h2]

theorem decimalValue_append_singleton (l : List Char) (c : Char) :
    decimalValue (l ++ [c]) = decimalValue l * 10 + digitVal c := by
  simp [decimalValue, List.foldl_append]

theorem decimalValue_lt (l : List Char) (h : l.all isDigit = true) :
    decimalValue l < 10 ^ l.length := by
  induction l using List.reverseRecOn with
  | nil => simp [decimalValue]
  | append_singleton t c ih =>
    simp only [List.all_append, List.all_cons, List.all_nil, Bool.and_true,
      Bool.and_eq_true] at h
    have h1 := ih h.1
    have h2 := digitVal_le c h.2
    rw [decimalValue_append_singleton, List.length_append, List.length_singleton, pow_succ]
    omega

theorem Atoi_two_digits (a b : Char) (ha : isDigit a = true) (hb : isDigit b = true) :
    Atoi (String.mk [a, b]) = (decimalValue [a, b] : Int) ∧ decimalValue [a, b] ≤ 99 := by
  have hlt := decimalValue_lt [a, b] (by simp [ha, hb])
  have hle : decimalValue [a, b] ≤ 99 := by
    simp only [List.length_cons, List.length_nil] at hlt
    omega
  refine ⟨?_, hle⟩
  obtain ⟨n1, n2, _⟩ := isDigit_ne a ha
  have hd : atoiDigits false [a, b] = (decimalValue [a, b] : Int) := by
    unfold atoiDigits
    rw [if_pos ⟨by simp, by simp [ha, hb]⟩]
    simp only [Bool.false_eq_true, if_false]
    omega
  unfold Atoi
  split
  · rename_i ds heq
    simp only [List.cons.injEq] at heq
    exact absurd heq.1 n1
  · rename_i ds heq
    simp only [List.cons.injEq] at heq
    exact absurd heq.1 n2
  · exact hd

theorem ParseFloat_decimal (ip fp : List Char) (hip : ip ≠ [])
    (hipd : ip.all isDigit = true) (hfpd : fp.all isDigit = true) :
    ParseFloat (String.mk (ip ++ '.' :: fp)) =
        roundRat false (decimalValue (ip ++ fp)) (10 ^ fp.length) ∧
      decimalRat (String.mk (ip ++ '.' :: fp)) =
        (decimalValue (ip ++ fp) : ℚ) / (10 : ℚ) ^ fp.length := by
  have hdot : isDigit '.' = false := by decide
  obtain ⟨t1, t2⟩ := takeWhile_digits ip '.' fp hipd hdot
  constructor
  · have hp : parseDecimal false (ip ++ '.' :: fp) =
        roundRat false (decimalValue (ip ++ fp)) (10 ^ fp.length) := by
      unfold parseDecimal
      simp only [t1, t2]
      rw [if_pos ⟨trivial, hfpd, fun h => hip h.1⟩]
    cases ip with
    | nil => exact absurd rfl hip
    | cons a t =>
      simp only [List.all_cons, Bool.and_eq_true] at hipd
      obtain ⟨n1, n2, _⟩ := isDigit_ne a hipd.1
      unfold ParseFloat
      split
      · rename_i ds heq
        simp only [List.cons_append, List.cons.injEq] at heq
        exact absurd heq.1 n1
      · rename_i ds heq
        simp only [List.cons_append, List.cons.injEq] at heq
        exact absurd heq.1 n2
      · exact hp
  · unfold decimalRat
    simp only [t1, t2, List.drop_one, List.tail_cons]

/-! ## The percentage -/

theorem inRange_of_bounds {x : ℚ} (h : x = 0 ∨ (1 / 100 ≤ x ∧ x ≤ 10 ^ 8)) : InRange x := by
  rcases h with h | ⟨h1, h2⟩
  · exact Or.inl h
  · right
    constructor
    · refine le_trans ?_ h1
      norm_num
    · refine lt_of_le_of_lt h2 ?_
      norm_num

theorem inRange_nat (n : Nat) (h : n ≤ 10 ^ 8) : InRange (n : ℚ) := by
  apply inRange_of_bounds
  rcases Nat.eq_zero_or_pos n with h0 | hpos
  · left; exact_mod_cast h0
  · right
    have h1 : (1 : ℚ) ≤ n := by exact_mod_cast hpos
    have h2 : (n : ℚ) ≤ 10 ^ 8 := by exact_mod_cast h
    constructor <;> linarith

theorem inRange_centi (n : Nat) (h : n ≤ 10 ^ 8) : InRange ((n : ℚ) / 100) := by
  apply inRange_of_bounds
  rcases Nat.eq_zero_or_pos n with h0 | hpos
  · left; rw [h0]; simp
  · right
    have h1 : (1 : ℚ) ≤ n := by exact_mod_cast hpos
    have h2 : (n : ℚ) ≤ 10 ^ 8 := by exact_mod_cast h
    constructor
    · rw [div_le_div_iff₀ (by norm_num) (by norm_num)]; linarith
    · rw [div_le_iff₀ (by norm_num)]; linarith

theorem near_roundRat (n d : Nat) (hd : 0 < d) (hx : InRange ((n : ℚ) / d)) :
    Near 1 (roundRat false n d) ((n : ℚ) / d) := by
  have h := near_round 0 n d 0 ((n : ℚ) / d) hd (by norm_num) hx (by simp) (by simp)
  have hr : roundScaled false n d 0 = roundRat false n d := by
    simp [roundScaled, scaleNum, scaleDen]
  rw [hr] at h
  exact h

theorem near_ofInt (n : Nat) (h : n ≤ 10 ^ 8) : Near 1 (F64.ofInt (n : Int)) (n : ℚ) := by
  have h1 := near_roundRat n 1 (by norm_num) (by simpa using inRange_nat n h)
  have hr : F64.ofInt (n : Int) = roundRat false n 1 := by
    unfold F64.ofInt
    have : ¬ ((n : Int) < 0) := by omega
    simp [this]
  rw [hr]
  simpa using h1

theorem near_const (m : Nat) (e : Int) (x : ℚ) (h : (m : ℚ) * (2 : ℚ) ^ e = x) :
    Near 0 (F64.fin false m e) x :=
  ⟨m, e, rfl, by simp [h], by simp [h]⟩

theorem near_3600 : Near 0 (F64.ofInt 3600) 3600 := by
  have h : F64.ofInt 3600 = F64.fin false 7916483719987200 (-41) := by decide
  rw [h]
  exact near_const _ _ _ (by norm_num)

theorem near_60 : Near 0 (F64.ofInt 60) 60 := by
  have h : F64.ofInt 60 = F64.fin false 8444249301319680 (-47) := by decide
  rw [h]
  exact near_const _ _ _ (by norm_num)

theorem near_100 : Near 0 (F64.ofInt 100) 100 := by
  have h : F64.ofInt 100 = F64.fin false 7036874417766400 (-46) := by decide
  rw [h]
  exact near_const _ _ _ (by norm_num)

theorem decimalRat_digits (l : List Char) (h : l.all isDigit = true) :
    decimalRat (String.mk l) = (decimalValue l : ℚ) := by
  obtain ⟨t1, t2⟩ := takeWhile_all_digits l h
  unfold decimalRat
  simp [t1, t2]

/-- The elapsed time computed from the groups of a `reTime` match is within four
roundings of `hours * 3600 + minutes * 60 + seconds`. -/
theorem currentOf_near (t0 : String) (h1 h2 m1 m2 s1 s2 f1 f2 : Char)
    (a1 : isDigit h1 = true) (a2 : isDigit h2 = true) (a3 : isDigit m1 = true)
    (a4 : isDigit m2 = true) (a5 : isDigit s1 = true) (a6 : isDigit s2 = true)
    (a7 : isDigit f1 = true) (a8 : isDigit f2 = true) :
    Near 4 (currentOf [t0, String.mk [h1, h2], String.mk [m1, m2],
        String.mk [s1, s2, '.', f1, f2]])
      (decimalRat (String.mk [h1, h2]) * 3600 + decimalRat (String.mk [m1, m2]) * 60 +
        decimalRat (String.mk [s1, s2, '.', f1, f2])) ∧
    InRange (decimalRat (String.mk [h1, h2]) * 3600 + decimalRat (String.mk [m1, m2]) * 60 +
        decimalRat (String.mk [s1, s2, '.', f1, f2])) ∧
    (decimalRat (String.mk [h1, h2]) * 3600 + decimalRat (String.mk [m1, m2]) * 60 +
        decimalRat (String.mk [s1, s2, '.', f1, f2]) = 0 ∨
      (1 / 100 ≤ decimalRat (String.mk [h1, h2]) * 3600 + decimalRat (String.mk [m1, m2]) * 60 +
        decimalRat (String.mk [s1, s2, '.', f1, f2]) ∧
      decimalRat (String.mk [h1, h2]) * 3600 + decimalRat (String.mk [m1, m2]) * 60 +
        decimalRat (String.mk [s1, s2, '.', f1, f2]) ≤ 362440)) := by
  obtain ⟨hA, hAle⟩ := Atoi_two_digits h1 h2 a1 a2
  obtain ⟨mA, mAle⟩ := Atoi_two_digits m1 m2 a3 a4
  obtain ⟨sP, sR⟩ := ParseFloat_decimal [s1, s2] [f1, f2] (by simp) (by simp [a5, a6])
    (by simp [a7, a8])
  have hR := decimalRat_digits [h1, h2] (by simp [a1, a2])
  have mR := decimalRat_digits [m1, m2] (by simp [a3, a4])
  have sle : decimalValue [s1, s2, f1, f2] ≤ 9999 := by
    have := decimalValue_lt [s1, s2, f1, f2] (by simp [a5, a6, a7, a8])
    simp only [List.length_cons, List.length_nil] at this
    omega
  simp only [List.cons_append, List.nil_append, List.length_cons, List.length_nil] at sP sR
  generalize decimalValue [h1, h2] = H at hA hAle hR
  generalize decimalValue [m1, m2] = M at mA mAle mR
  generalize decimalValue [s1, s2, f1, f2] = S at sP sR sle
  rw [hR, mR, sR]
  have hcur : currentOf [t0, String.mk [h1, h2], String.mk [m1, m2],
      String.mk [s1, s2, '.', f1, f2]] =
      F64.add (F64.add (F64.mul (F64.ofInt (H : Int)) (F64.ofInt 3600))
        (F64.mul (F64.ofInt (M : Int)) (F64.ofInt 60))) (roundRat false S (10 ^ 2)) := by
    simp only [currentOf, List.getD_cons_succ, List.getD_cons_zero, hA, mA, sP]
  rw [hcur]
  have nH := near_ofInt H (by omega)
  have nM := near_ofInt M (by omega)
  have nH2 : Near 2 (F64.mul (F64.ofInt (H : Int)) (F64.ofInt 3600)) ((H : ℚ) * 3600) :=
    @near_mul 1 0 _ _ _ _ nH near_3600 (by norm_num)
      (by have := inRange_nat (H * 3600) (by omega); push_cast at this; exact this)
  have nM2 : Near 2 (F64.mul (F64.ofInt (M : Int)) (F64.ofInt 60)) ((M : ℚ) * 60) :=
    @near_mul 1 0 _ _ _ _ nM near_60 (by norm_num)
      (by have := inRange_nat (M * 60) (by omega); push_cast at this; exact this)
  have nHM := @near_add 2 _ _ _ _ nH2 nM2 (by norm_num)
      (by have := inRange_nat (H * 3600 + M * 60) (by omega); push_cast at this; exact this)
  have hS : ((S : ℚ) / ((10 ^ 2 : ℕ) : ℚ)) = (S : ℚ) / 10 ^ 2 := by norm_num
  have nS : Near 1 (roundRat false S (10 ^ 2)) ((S : ℚ) / 10 ^ 2) := by
    have := near_roundRat S (10 ^ 2) (by norm_num)
      (by rw [hS]; have := inRange_centi S (by omega); norm_num at this ⊢; exact this)
    rw [hS] at this
    exact this
  have hc : (H : ℚ) * 3600 + (M : ℚ) * 60 + (S : ℚ) / 10 ^ 2 =
      (((H * 3600 + M * 60) * 100 + S : ℕ) : ℚ) / 100 := by
    push_cast
    ring
  have hcr := inRange_centi ((H * 3600 + M * 60) * 100 + S) (by omega)
  rw [← hc] at hcr
  have nS3 : Near 3 (roundRat false S (10 ^ 2)) ((S : ℚ) / 10 ^ 2) := nS.mono (by norm_num)
  refine ⟨@near_add 3 _ _ _ _ nHM nS3 (by norm_num) hcr, hcr, ?_⟩
  rw [hc]
  rcases Nat.eq_zero_or_pos ((H * 3600 + M * 60) * 100 + S) with h0 | hpos
  · left; rw [h0]; simp
  · right
    have h1 : (1 : ℚ) ≤ (((H * 3600 + M * 60) * 100 + S : ℕ) : ℚ) := by exact_mod_cast hpos
    have h2 : (((H * 3600 + M * 60) * 100 + S : ℕ) : ℚ) ≤ 36244000 := by
      have : (H * 3600 + M * 60) * 100 + S ≤ 36244000 := by omega
      exact_mod_cast this
    constructor
    · rw [div_le_div_iff₀ (by norm_num) (by norm_num)]; linarith
    · rw [div_le_iff₀ (by norm_num)]; linarith

theorem Contains_of_data (line : String) (sub pre post : List Char)
    (h : line.data = pre ++ sub ++ post) : Contains line (String.mk sub) = true := by
  unfold Contains
  rw [containsAt_iff]
  exact ⟨pre, post, h.symm⟩

/-- A line on which both patterns match is decoded: the writes are the progress
update computed from the captured groups, then the line; and the groups have
the shape the patterns prescribe. -/
theorem decoded_shape (line t0 hh mm ss d0 dd : String)
    (ht : reTimeFind line = [t0, hh, mm, ss]) (hd : reDurationFind line = [d0, dd]) :
    drainLine line = [Out.progress (progressOf [t0, hh, mm, ss] [d0, dd]), Out.line line] ∧
    (∃ h1 h2 m1 m2 s1 s2 f1 f2 : Char,
      isDigit h1 = true ∧ isDigit h2 = true ∧ isDigit m1 = true ∧ isDigit m2 = true ∧
      isDigit s1 = true ∧ isDigit s2 = true ∧ isDigit f1 = true ∧ isDigit f2 = true ∧
      hh = String.mk [h1, h2] ∧ mm = String.mk [m1, m2] ∧
      ss = String.mk [s1, s2, '.', f1, f2]) ∧
    (∃ ip fp : List Char, ip ≠ [] ∧ fp ≠ [] ∧ ip.all isDigit = true ∧ fp.all isDigit = true ∧
      dd = String.mk (ip ++ '.' :: fp)) := by
  have htne : reTimeFind line ≠ [] := by rw [ht]; simp
  have hdne : reDurationFind line ≠ [] := by rw [hd]; simp
  obtain ⟨pre, post, h1, h2, m1, m2, s1, s2, f1, f2, a1, a2, a3, a4, a5, a6, a7, a8, hl, hr⟩ :=
    reTimeFind_shape line htne
  obtain ⟨pre', post', ip, fp, b1, b2, b3, b4, hl', hr'⟩ := reDurationFind_shape line hdne
  rw [ht] at hr
  rw [hd] at hr'
  simp only [List.cons.injEq, and_true] at hr hr'
  obtain ⟨_, e1, e2, e3⟩ := hr
  obtain ⟨_, e4⟩ := hr'
  have c1 : Contains line "time=" = true :=
    Contains_of_data line "time=".data pre
      ([h1, h2, ':', m1, m2, ':', s1, s2, '.', f1, f2] ++ post)
      (by rw [hl]; simp only [List.append_assoc])
  have c2 : Contains line "duration=" = true :=
    Contains_of_data line "duration=".data pre' (ip ++ '.' :: fp ++ post')
      (by rw [hl']; simp only [List.append_assoc])
  refine ⟨?_, ⟨h1, h2, m1, m2, s1, s2, f1, f2, a1, a2, a3, a4, a5, a6, a7, a8, e1, e2, e3⟩,
    ⟨ip, fp, b1, b2, b3, b4, e4⟩⟩
  unfold drainLine
  rw [if_pos ⟨c1, c2⟩]
  simp only [ht, hd, List.length_cons, List.length_nil]
  simp

theorem near_seven_bound (m : Nat) (e : Int) (x : ℚ) (h : Near 7 (F64.fin false m e) x) :
    |(F64.fin false m e).toRat - x| ≤ x / 2 ^ 50 := by
  have hx := h.nonneg
  obtain ⟨m', e', hf, h1, h2⟩ := h
  simp only [F64.fin.injEq, true_and] at hf
  obtain ⟨rfl, rfl⟩ := hf
  have hv : (0 : ℚ) ≤ (m : ℚ) * (2 : ℚ) ^ e := by positivity
  have hp : (1 : ℚ) - 7 / 2 ^ 53 ≤ (1 - unitRoundoff) ^ 7 := by
    unfold unitRoundoff
    norm_num
  have hval : (F64.fin false m e).toRat = (m : ℚ) * (2 : ℚ) ^ e := by
    simp [F64.toRat]
  rw [hval]
  generalize (m : ℚ) * (2 : ℚ) ^ e = v at h1 h2 hv ⊢
  generalize (1 - unitRoundoff) ^ 7 = c at h1 h2 hp
  have hc0 : (0 : ℚ) ≤ c := le_trans (by norm_num) hp
  have l1 : x * (1 - 7 / 2 ^ 53) ≤ v := le_trans (mul_le_mul_of_nonneg_left hp hx) h1
  have l2 : v * (1 - 7 / 2 ^ 53) ≤ x := le_trans (mul_le_mul_of_nonneg_left hp hv) h2
  rw [abs_le]
  constructor
  · have : x / 2 ^ 50 = x * (8 / 2 ^ 53) := by norm_num; ring
    rw [this]
    linarith
  · have : x / 2 ^ 50 = x * (8 / 2 ^ 53) := by norm_num; ring
    rw [this]
    have l3 : v * (1 - 7 / 2 ^ 53) * (1 + 8 / 2 ^ 53) ≤ x * (1 + 8 / 2 ^ 53) :=
      mul_le_mul_of_nonneg_right l2 (by norm_num)
    have l4 : v ≤ v * ((1 - 7 / 2 ^ 53) * (1 + 8 / 2 ^ 53)) := by
      have : (1 : ℚ) ≤ (1 - 7 / 2 ^ 53) * (1 + 8 / 2 ^ 53) := by norm_num
      calc v = v * 1 := by ring
        _ ≤ v * ((1 - 7 / 2 ^ 53) * (1 + 8 / 2 ^ 53)) := mul_le_mul_of_nonneg_left this hv
    linarith

/-- C1, as the code has it: on a line where `reTime` captures `hh`, `mm`, `ss`
and `reDuration` captures `dd`, with the duration between `10^-300` and
`10^300`, the drainer writes one progress update and then the line; the update
is a finite non-negative `float64` whose value differs from
`100 * (h*3600 + m*60 + s) / d` by at most that number times `2^-50`. -/
theorem progress_decoding (line t0 hh mm ss d0 dd : String)
    (ht : reTimeFind line = [t0, hh, mm, ss]) (hd : reDurationFind line = [d0, dd])
    (hlo : 1 / 10 ^ 300 ≤ decimalRat dd) (hhi : decimalRat dd ≤ 10 ^ 300) :
    ∃ (m : Nat) (e : Int),
      drainLine line = [Out.progress (F64.fin false m e), Out.line line] ∧
      |(F64.fin false m e).toRat -
          100 * (decimalRat hh * 3600 + decimalRat mm * 60 + decimalRat ss) / decimalRat dd| ≤
        100 * (decimalRat hh * 3600 + decimalRat mm * 60 + decimalRat ss) / decimalRat dd
          / 2 ^ 50 := by
  obtain ⟨hdl, ⟨h1, h2, m1, m2, s1, s2, f1, f2, a1, a2, a3, a4, a5, a6, a7, a8, rfl, rfl, rfl⟩,
    ⟨ip, fp, b1, b2, b3, b4, rfl⟩⟩ := decoded_shape line t0 hh mm ss d0 dd ht hd
  obtain ⟨nc, rc, bc⟩ := currentOf_near t0 h1 h2 m1 m2 s1 s2 f1 f2 a1 a2 a3 a4 a5 a6 a7 a8
  obtain ⟨dP, dR⟩ := ParseFloat_decimal ip fp b1 b3 b4
  generalize decimalRat (String.mk [h1, h2]) * 3600 + decimalRat (String.mk [m1, m2]) * 60 +
    decimalRat (String.mk [s1, s2, '.', f1, f2]) = c at nc rc bc ⊢
  have hdpos : (0 : ℚ) < decimalRat (String.mk (ip ++ '.' :: fp)) :=
    lt_of_lt_of_le (by norm_num) hlo
  have rd : InRange (decimalRat (String.mk (ip ++ '.' :: fp))) := by
    right
    constructor
    · refine le_trans ?_ hlo
      norm_num
    · refine lt_of_le_of_lt hhi ?_
      norm_num
  have nd : Near 1 (ParseFloat (String.mk (ip ++ '.' :: fp)))
      (decimalRat (String.mk (ip ++ '.' :: fp))) := by
    rw [dP, dR]
    rw [dR] at rd
    have h10 : ((10 : ℚ) ^ fp.length) = ((10 ^ fp.length : ℕ) : ℚ) := by push_cast; rfl
    rw [h10] at rd ⊢
    exact near_roundRat _ _ (by positivity) rd
  generalize decimalRat (String.mk (ip ++ '.' :: fp)) = d at hlo hhi hdpos rd nd ⊢
  have hc0 : 0 ≤ c := nc.nonneg
  have rq : InRange (c / d) := by
    rcases bc with h0 | ⟨hl, hu⟩
    · left; rw [h0]; simp
    · right
      constructor
      · rw [le_div_iff₀ hdpos]
        calc (2 : ℚ) ^ (-1021 : ℤ) * d ≤ (2 : ℚ) ^ (-1021 : ℤ) * 10 ^ 300 :=
              mul_le_mul_of_nonneg_left hhi (by positivity)
          _ ≤ 1 / 100 := by norm_num
          _ ≤ c := hl
      · rw [div_lt_iff₀ hdpos]
        calc c ≤ 362440 := hu
          _ < (2 : ℚ) ^ (1022 : ℤ) * (1 / 10 ^ 300) := by norm_num
          _ ≤ (2 : ℚ) ^ (1022 : ℤ) * d := mul_le_mul_of_nonneg_left hlo (by positivity)
  have rp : InRange (c / d * 100) := by
    rcases bc with h0 | ⟨hl, hu⟩
    · left; rw [h0]; simp
    · right
      constructor
      · have : (2 : ℚ) ^ (-1021 : ℤ) * d ≤ c * 100 := by
          calc (2 : ℚ) ^ (-1021 : ℤ) * d ≤ (2 : ℚ) ^ (-1021 : ℤ) * 10 ^ 300 :=
                mul_le_mul_of_nonneg_left hhi (by positivity)
            _ ≤ 1 / 100 * 100 := by norm_num
            _ ≤ c * 100 := by linarith
        rw [div_mul_eq_mul_div, le_div_iff₀ hdpos]
        exact this
      · have : c * 100 < (2 : ℚ) ^ (1022 : ℤ) * d := by
          calc c * 100 ≤ 362440 * 100 := by linarith
            _ < (2 : ℚ) ^ (1022 : ℤ) * (1 / 10 ^ 300) := by norm_num
            _ ≤ (2 : ℚ) ^ (1022 : ℤ) * d := mul_le_mul_of_nonneg_left hlo (by positivity)
        rw [div_mul_eq_mul_div, div_lt_iff₀ hdpos]
        exact this
  have nq := @near_div 4 1 _ _ _ _ nc nd hdpos (by norm_num) rq
  have np := @near_mul 6 0 _ _ _ _ nq near_100 (by norm_num) rp
  have hprog : progressOf [t0, String.mk [h1, h2], String.mk [m1, m2],
      String.mk [s1, s2, '.', f1, f2]] [d0, String.mk (ip ++ '.' :: fp)] =
      F64.mul (F64.div (currentOf [t0, String.mk [h1, h2], String.mk [m1, m2],
        String.mk [s1, s2, '.', f1, f2]]) (ParseFloat (String.mk (ip ++ '.' :: fp))))
        (F64.ofInt 100) := rfl
  rw [hprog] at hdl
  obtain ⟨m, e, hf, hb1, hb2⟩ := np
  refine ⟨m, e, by rw [hdl, hf], ?_⟩
  have hX : 100 * c / d = c / d * 100 := by ring
  rw [hX]
  exact near_seven_bound m e _ ⟨m, e, rfl, hb1, hb2⟩

/-- A captured duration whose numeral is zero parses to `+0`. -/
theorem ParseFloat_zero_numeral (ip fp : List Char) (hip : ip ≠ [])
    (hipd : ip.all isDigit = true) (hfpd : fp.all isDigit = true)
    (hz : decimalRat (String.mk (ip ++ '.' :: fp)) = 0) :
    ParseFloat (String.mk (ip ++ '.' :: fp)) = F64.fin false 0 (-1074) := by
  obtain ⟨dP, dR⟩ := ParseFloat_decimal ip fp hip hipd hfpd
  have hN : decimalValue (ip ++ fp) = 0 := by
    rw [dR] at hz
    have h10 : ((10 : ℚ) ^ fp.length) ≠ 0 := by positivity
    rcases div_eq_zero_iff.mp hz with h | h
    · exact_mod_cast h
    · exact absurd h h10
  rw [dP, hN]
  simp [roundRat]

/-- C2, as the code has it: there is no guard on the duration.  On a line where
both patterns match and the captured duration parses to zero (the numeral is
zero, or too small for a `float64`), the drainer still writes a progress update
before the line: `NaN` when the elapsed time is zero too, and `+Inf`
otherwise. -/
theorem zero_duration_progress (line t0 hh mm ss d0 dd : String)
    (ht : reTimeFind line = [t0, hh, mm, ss]) (hd : reDurationFind line = [d0, dd])
    (hz : ParseFloat dd = F64.fin false 0 (-1074)) :
    drainLine line =
      [Out.progress
        (if decimalRat hh * 3600 + decimalRat mm * 60 + decimalRat ss = 0 then F64.nan
          else F64.inf false),
        Out.line line] := by
  obtain ⟨hdl, ⟨h1, h2, m1, m2, s1, s2, f1, f2, a1, a2, a3, a4, a5, a6, a7, a8, rfl, rfl, rfl⟩,
    ⟨ip, fp, b1, b2, b3, b4, rfl⟩⟩ := decoded_shape line t0 hh mm ss d0 dd ht hd
  obtain ⟨nc, _, _⟩ := currentOf_near t0 h1 h2 m1 m2 s1 s2 f1 f2 a1 a2 a3 a4 a5 a6 a7 a8
  have hc0 := nc.nonneg
  generalize decimalRat (String.mk [h1, h2]) * 3600 + decimalRat (String.mk [m1, m2]) * 60 +
    decimalRat (String.mk [s1, s2, '.', f1, f2]) = c at nc hc0 ⊢
  have hdur : ParseFloat (String.mk (ip ++ '.' :: fp)) = F64.fin false 0 (-1074) := hz
  have h100 : F64.ofInt 100 = F64.fin false 7036874417766400 (-46) := by decide
  have hprog : progressOf [t0, String.mk [h1, h2], String.mk [m1, m2],
      String.mk [s1, s2, '.', f1, f2]] [d0, String.mk (ip ++ '.' :: fp)] =
      F64.mul (F64.div (currentOf [t0, String.mk [h1, h2], String.mk [m1, m2],
        String.mk [s1, s2, '.', f1, f2]]) (ParseFloat (String.mk (ip ++ '.' :: fp))))
        (F64.ofInt 100) := rfl
  rw [hdl, hprog, hdur, h100]
  obtain ⟨m, e, hf, hb1, hb2⟩ := nc
  rw [hf]
  have hcpos := one_sub_pow_pos 4
  have hE : (0 : ℚ) < (2 : ℚ) ^ e := by positivity
  by_cases hc : c = 0
  · have hm : m = 0 := by
      rw [hc] at hb2
      have hv : (m : ℚ) * (2 : ℚ) ^ e ≤ 0 := by
        by_contra hcon
        push_neg at hcon
        have := mul_pos hcon hcpos
        linarith
      have hm0 : (m : ℚ) ≤ 0 := by
        by_contra hcon
        push_neg at hcon
        have := mul_pos hcon hE
        linarith
      have : (m : ℚ) = 0 := le_antisymm hm0 (by positivity)
      exact_mod_cast this
    rw [if_pos hc, hm]
    simp [F64.div, F64.mul]
  · have hcp : 0 < c := lt_of_le_of_ne hc0 (Ne.symm hc)
    have hm : m ≠ 0 := by
      rintro rfl
      have := mul_pos hcp hcpos
      simp at hb1
      linarith
    rw [if_neg hc]
    simp [F64.div, F64.mul, hm]

theorem decimalRat_sample : decimalRat "600.0" = 600 := by
  simp [decimalRat, decimalValue, List.takeWhile, List.dropWhile, isDigit, digitVal]
  norm_num

set_option maxRecDepth 100000 in
set_option exponentiation.threshold 2000 in
/-- Witness for C1, on the line of the specification: the groups captured are
`00`, `01`, `30.50` and `600.0`, the elapsed time is exactly 90.5 seconds, the
progress update is the `float64` nearest to 15.0833..., it is written as
`15.08`, and it is within the stated tolerance of `100 * 90.5 / 600`. -/
theorem progress_decoding_witness :
    reTimeFind "frame=100 fps=10 time=00:01:30.50 duration=600.0" =
        ["time=00:01:30.50", "00", "01", "30.50"] ∧
      reDurationFind "frame=100 fps=10 time=00:01:30.50 duration=600.0" =
        ["duration=600.0", "600.0"] ∧
      currentOf ["time=00:01:30.50", "00", "01", "30.50"] =
        F64.fin false 6368371348078592 (-46) ∧
      (F64.fin false 6368371348078592 (-46)).toRat = 181 / 2 ∧
      drainLine "frame=100 fps=10 time=00:01:30.50 duration=600.0" =
        [Out.progress (F64.fin false 8491161797438123 (-49)),
          Out.line "frame=100 fps=10 time=00:01:30.50 duration=600.0"] ∧
      (drainLine "frame=100 fps=10 time=00:01:30.50 duration=600.0").map Out.render =
        ["\r转码进度：15.08%", "frame=100 fps=10 time=00:01:30.50 duration=600.0\n"] ∧
      ∃ (m : Nat) (e : Int),
        drainLine "frame=100 fps=10 time=00:01:30.50 duration=600.0" =
          [Out.progress (F64.fin false m e),
            Out.line "frame=100 fps=10 time=00:01:30.50 duration=600.0"] ∧
        |(F64.fin false m e).toRat -
            100 * (decimalRat "00" * 3600 + decimalRat "01" * 60 + decimalRat "30.50") /
              decimalRat "600.0"| ≤
          100 * (decimalRat "00" * 3600 + decimalRat "01" * 60 + decimalRat "30.50") /
            decimalRat "600.0" / 2 ^ 50 :=
  ⟨by decide, by decide, by decide, by norm_num [F64.toRat], by decide, by decide,
    progress_decoding "frame=100 fps=10 time=00:01:30.50 duration=600.0"
      "time=00:01:30.50" "00" "01" "30.50" "duration=600.0" "600.0" (by decide) (by decide)
      (by rw [decimalRat_sample]; norm_num) (by rw [decimalRat_sample]; norm_num)⟩

set_option maxRecDepth 100000 in
set_option exponentiation.threshold 2000 in
/-- Counterexample to C1 as stated: on `time=00:00:01.00 duration=3.0` the
progress update is the `float64` value `4691249611844266 * 2^-47`, which is
not `100 * (0*3600 + 0*60 + 1) / 3`; no `float64` is.  And a positive duration
can be too small for any tolerance: with one second elapsed of a duration of
`10^-401` the duration parses to zero and the progress update is `+Inf`. -/
theorem progress_not_exact :
    reTimeFind "time=00:00:01.00 duration=3.0" = ["time=00:00:01.00", "00", "00", "01.00"] ∧
      reDurationFind "time=00:00:01.00 duration=3.0" = ["duration=3.0", "3.0"] ∧
      drainLine "time=00:00:01.00 duration=3.0" =
        [Out.progress (F64.fin false 4691249611844266 (-47)),
          Out.line "time=00:00:01.00 duration=3.0"] ∧
      (F64.fin false 4691249611844266 (-47)).toRat ≠ 100 * (0 * 3600 + 0 * 60 + 1) / 3 ∧
      drainLine tinyDurationLine = [Out.progress (F64.inf false), Out.line tinyDurationLine] := by
  refine ⟨by decide, by decide, by decide, ?_, by decide⟩
  norm_num [F64.toRat]

theorem decimalRat_zero_sample : decimalRat "0.0" = 0 := by
  simp [decimalRat, decimalValue, List.takeWhile, List.dropWhile, isDigit, digitVal]

theorem decimalRat_elapsed_sample :
    decimalRat "00" * 3600 + decimalRat "00" * 60 + decimalRat "01.00" = 1 := by
  simp [decimalRat, decimalValue, List.takeWhile, List.dropWhile, isDigit, digitVal]
  norm_num

set_option maxRecDepth 100000 in
set_option exponentiation.threshold 2000 in
/-- Counterexample to C2 as stated: the line of the specification, with a zero
duration, does produce a progress update; it is `NaN` and is written as
`NaN%`. -/
theorem zero_duration_not_skipped :
    drainLine "time=00:00:00.00 duration=0.0" =
        [Out.progress F64.nan, Out.line "time=00:00:00.00 duration=0.0"] ∧
      (drainLine "time=00:00:00.00 duration=0.0").map Out.render =
        ["\r转码进度：NaN%", "time=00:00:00.00 duration=0.0\n"] ∧
      progressUpdates (drainLine "time=00:00:00.00 duration=0.0") ≠ [] := by
  decide

set_option maxRecDepth 100000 in
theorem tinyDuration_pos : 0 < decimalRat tinyDuration := by
  have h := (ParseFloat_decimal ['0'] (List.replicate 400 '0' ++ ['1']) (by simp)
    (by decide) (by decide)).2
  have hv : decimalValue (['0'] ++ (List.replicate 400 '0' ++ ['1'])) = 1 := by decide
  have ht : tinyDuration = String.mk (['0'] ++ '.' :: (List.replicate 400 '0' ++ ['1'])) := rfl
  rw [ht, h, hv]
  positivity

set_option maxRecDepth 100000 in
set_option exponentiation.threshold 2000 in
/-- Witness for C2: one second elapsed of the duration `0.0` is written as
`+Inf%`; and so is one second elapsed of the duration `10^-401`, which is not
zero but parses to zero. -/
theorem zero_duration_progress_witness :
    ParseFloat "0.0" = F64.fin false 0 (-1074) ∧
      ParseFloat tinyDuration = F64.fin false 0 (-1074) ∧
      0 < decimalRat tinyDuration ∧
      decimalRat "00" * 3600 + decimalRat "00" * 60 + decimalRat "01.00" ≠ 0 ∧
      drainLine "time=00:00:01.00 duration=0.0" =
        [Out.progress
          (if decimalRat "00" * 3600 + decimalRat "00" * 60 + decimalRat "01.00" = 0
            then F64.nan else F64.inf false),
          Out.line "time=00:00:01.00 duration=0.0"] ∧
      drainLine tinyDurationLine =
        [Out.progress
          (if decimalRat "00" * 3600 + decimalRat "00" * 60 + decimalRat "01.00" = 0
            then F64.nan else F64.inf false),
          Out.line tinyDurationLine] ∧
      (drainLine "time=00:00:01.00 duration=0.0").map Out.render =
        ["\r转码进度：+Inf%", "time=00:00:01.00 duration=0.0\n"] :=
  ⟨by decide, by decide, tinyDuration_pos,
    by rw [decimalRat_elapsed_sample]; norm_num,
    zero_duration_progress "time=00:00:01.00 duration=0.0" "time=00:00:01.00" "00" "00"
      "01.00" "duration=0.0" "0.0" (by decide) (by decide) (by decide),
    zero_duration_progress tinyDurationLine "time=00:00:01.00" "00" "00"
      "01.00" ("duration=" ++ tinyDuration) tinyDuration (by decide) (by decide) (by decide),
    by decide⟩

/-- Witness for C6: the default flags on `a.mkv`, where `-subtitles` is off and
the filter is absent although a subtitle file exists; and the same file with
`-subtitles` on, where `a.srt` is found. -/
theorem cmdArgs_shape_witness :
    defaultFlags.subtitles = false ∧ subtitleFlags.subtitles = true ∧
      ∀ toLowerTable : Char → Char,
        (findSubtitle (unixEnv toLowerTable) defaultFlags (fun _ => true) subtitleExtKeys
            "a.mkv" = "" ∧
          cmdArgs defaultFlags "a.mkv"
              (findSubtitle (unixEnv toLowerTable) defaultFlags (fun _ => true)
                subtitleExtKeys "a.mkv")
              "a_hevc.mp4" =
            ["-i", "a.mkv", "-c:v", "hevc", "-preset", "medium", "-threads", "0", "-crf",
              "28", "-c:a", "copy", "-y", "a_hevc.mp4"]) ∧
        findSubtitle (unixEnv toLowerTable) subtitleFlags (fun p => p == "a.srt")
          subtitleExtKeys "a.mkv" ≠ "" ∧
        cmdArgs subtitleFlags "a.mkv"
            (findSubtitle (unixEnv toLowerTable) subtitleFlags (fun p => p == "a.srt")
              subtitleExtKeys "a.mkv")
            "a_hevc.mp4" =
          ["-i", "a.mkv", "-c:v", "hevc", "-preset", "medium", "-threads", "0", "-crf", "28",
            "-c:a", "copy", "-y", "-vf", "subtitles=a.srt", "a_hevc.mp4"] :=
  ⟨rfl, rfl, fun toLowerTable =>
    ⟨(cmdArgs_shape (unixEnv toLowerTable) defaultFlags "a.mkv" "" "a_hevc.mp4"
        (fun _ => true) subtitleExtKeys).2.2.2.1 rfl,
      ((cmdArgs_shape (unixEnv toLowerTable) subtitleFlags "a.mkv" "" "a_hevc.mp4"
        (fun p => p == "a.srt") subtitleExtKeys).2.2.2.2 (by decide)).mpr
          ⟨rfl, ".srt", by decide, rfl⟩,
      rfl⟩⟩

/-- Witness for C7: the listing that has `hevc` only inside `hevc_nvenc` passes
the check for the codec `hevc`, and the walk runs. -/
theorem codec_gate_witness :
    Contains nvencListing "hevc" = true ∧
      ∀ toLowerTable : Char → Char,
        (Walk (walkFn (unixEnv toLowerTable) defaultFlags) [fileVisit "a.mkv" okChild]).1 <+:
          (main (unixEnv toLowerTable) defaultFlags
            ⟨Except.ok nvencListing, [fileVisit "a.mkv" okChild]⟩).events :=
  ⟨by decide, fun toLowerTable =>
    (codec_gate (unixEnv toLowerTable) defaultFlags nvencListing
      [fileVisit "a.mkv" okChild]).2.2.1 (by decide)⟩

/-! ## Supporting facts -/

theorem extLoop_suffix (sep : Char → Bool) (rev acc : List Char) :
    extLoop sep rev acc <:+ rev.reverse ++ acc := by
  induction rev generalizing acc with
  | nil => exact List.nil_suffix
  | cons c rest ih =>
    unfold extLoop
    split
    · exact List.nil_suffix
    · split
      · rw [List.reverse_cons, List.append_assoc]
        exact List.suffix_append _ _
      · have := ih (c :: acc)
        rw [List.reverse_cons, List.append_assoc]
        exact this

/-- Where C5 does hold: when the extension of the path is already in lower
case, the output path is the path without its extension, followed by `_`, the
codec name and `.mp4`. -/
theorem outputPath_lower_case_ext (env : GoEnv) (codec path : String)
    (h : lowerExt env path = Ext env path) :
    ∃ stem : String, path = stem ++ Ext env path ∧
      outputPath env codec path = stem ++ "_" ++ codec ++ ".mp4" := by
  have hs : (Ext env path).data <:+ path.data := by
    have := extLoop_suffix env.isPathSeparator path.data.reverse []
    simpa [Ext] using this
  obtain ⟨pre, hpre⟩ := hs
  refine ⟨String.mk pre, ?_, ?_⟩
  · apply String.ext
    simp [String.data_append, hpre]
  · unfold outputPath TrimSuffix HasSuffix
    rw [h, if_pos (by rw [List.isSuffixOf_iff_suffix]; exact ⟨pre, hpre⟩)]
    congr 3
    apply String.ext
    simp [← hpre]

theorem matchTimeAt_complete (post : List Char) (h1 h2 m1 m2 s1 s2 f1 f2 : Char)
    (a1 : isDigit h1 = true) (a2 : isDigit h2 = true) (a3 : isDigit m1 = true)
    (a4 : isDigit m2 = true) (a5 : isDigit s1 = true) (a6 : isDigit s2 = true)
    (a7 : isDigit f1 = true) (a8 : isDigit f2 = true) :
    matchTimeAt (("time=".data ++ [h1, h2, ':', m1, m2, ':', s1, s2, '.', f1, f2]) ++ post)
      ≠ [] := by
  unfold matchTimeAt
  have hp : "time=".data.isPrefixOf
      (("time=".data ++ [h1, h2, ':', m1, m2, ':', s1, s2, '.', f1, f2]) ++ post) = true := by
    rw [List.isPrefixOf_iff_prefix, List.append_assoc]
    exact List.prefix_append _ _
  rw [if_pos hp, List.append_assoc, List.drop_left' (by rfl)]
  simp [a1, a2, a3, a4, a5, a6, a7, a8]

theorem matchDurationAt_complete (post ip fp : List Char) (hip : ip ≠ []) (hfp : fp ≠ [])
    (hipd : ip.all isDigit = true) (hfpd : fp.all isDigit = true) :
    matchDurationAt (("duration=".data ++ ip ++ '.' :: fp) ++ post) ≠ [] := by
  unfold matchDurationAt
  have hp : "duration=".data.isPrefixOf (("duration=".data ++ ip ++ '.' :: fp) ++ post)
      = true := by
    rw [List.isPrefixOf_iff_prefix, List.append_assoc, List.append_assoc]
    exact List.prefix_append _ _
  have hdot : isDigit '.' = false := by decide
  obtain ⟨t1, t2⟩ := takeWhile_digits ip '.' (fp ++ post) hipd hdot
  rw [if_pos hp, List.append_assoc, List.append_assoc, List.drop_left' (by rfl)]
  simp only [List.cons_append, t1, t2]
  cases fp with
  | nil => exact absurd rfl hfp
  | cons a t =>
    simp only [List.all_cons, Bool.and_eq_true] at hfpd
    simp [List.takeWhile, hfpd.1, hip]

/-- The converse of C4: a line in which both patterns occur is decoded, and a
progress update is written before the line. -/
theorem decodable_line_emits (line : String) (ht : TimePatternOccurs line)
    (hd : DurationPatternOccurs line) :
    drainLine line =
      [Out.progress (progressOf (reTimeFind line) (reDurationFind line)), Out.line line] := by
  obtain ⟨pre, post, h1, h2, m1, m2, s1, s2, f1, f2, a1, a2, a3, a4, a5, a6, a7, a8, hl⟩ := ht
  obtain ⟨pre', post', ip, fp, b1, b2, b3, b4, hl'⟩ := hd
  have htne : reTimeFind line ≠ [] := by
    unfold reTimeFind
    rw [hl, List.append_assoc]
    exact findFirst_ne_nil _ _ _
      (matchTimeAt_complete post h1 h2 m1 m2 s1 s2 f1 f2 a1 a2 a3 a4 a5 a6 a7 a8)
  have hdne : reDurationFind line ≠ [] := by
    unfold reDurationFind
    rw [hl', List.append_assoc]
    exact findFirst_ne_nil _ _ _ (matchDurationAt_complete post' ip fp b1 b2 b3 b4)
  obtain ⟨_, _, _, _, _, _, _, _, _, _, _, _, _, _, _, _, _, _, _, hr⟩ :=
    reTimeFind_shape line htne
  obtain ⟨_, _, _, _, _, _, _, _, _, hr'⟩ := reDurationFind_shape line hdne
  have h := (decoded_shape line _ _ _ _ _ _ hr hr').1
  rw [h, hr, hr']

end GoVideoConverter
